import Mathlib

/-!
Verification of the gonab reconstruction pipeline (`db/db.go`).

This development gives a shallow embedding of the pipeline's core logic:
the subject-line part parsing and grouping of `MakeBinaries`, the name
cleaning of `cleanReleaseName`, the completeness aggregate query and the
release promotion loop of `MakeReleases`.  The relational store is
modelled as explicit lists of rows; the SQL statements are translated to
list filters with SQLite's integer-division semantics; fallible store and
collaborator calls are driven by an explicit failure oracle so that the
error-handling paths (rollback, batch abort, the nil-group dereference)
are part of the model.  Machine integers are modelled as `Nat`/`Int`
with explicit reduction modulo `2^64` where the 64-bit hash overflows.
-/

/-! ## 64-bit helpers and the xxhash64 digest

`MakeBinaries` keys its per-run binary map on
`fmt.Sprintf("%x", xxhash.Sum64(name ++ group ++ from ++ totalParts))`.
The xxhash library is an external collaborator; the XXH64 algorithm
(seed 0, little-endian lanes) is reproduced here over byte lists so that
hash values of concrete inputs can be evaluated.
-/

def w64 : Nat := 2 ^ 64

def m64 (n : Nat) : Nat := n % w64

def add64 (a b : Nat) : Nat := (a + b) % w64

def sub64 (a b : Nat) : Nat := (a + (w64 - b % w64)) % w64

def mul64 (a b : Nat) : Nat := (a * b) % w64

def xor64 (a b : Nat) : Nat := a ^^^ b

/-- Rotate a 64-bit value left by `r` bits (`0 < r < 64`). -/
def rotl64 (x r : Nat) : Nat :=
  ((x % 2 ^ (64 - r)) * 2 ^ r) + (x / 2 ^ (64 - r))

def xxPrime1 : Nat := 11400714785074694791
def xxPrime2 : Nat := 14029467366897019727
def xxPrime3 : Nat := 1609587929392839161
def xxPrime4 : Nat := 9650029242287828579
def xxPrime5 : Nat := 2870177450012600261

/-- One XXH64 accumulator round. -/
def xxRound (acc input : Nat) : Nat :=
  mul64 (rotl64 (add64 acc (mul64 input xxPrime2)) 31) xxPrime1

/-- XXH64 merge of one accumulator into the digest. -/
def xxMergeRound (h v : Nat) : Nat :=
  add64 (mul64 (xor64 h (xxRound 0 v)) xxPrime1) xxPrime4

/-- Little-endian read of `k` bytes from the front of a byte list. -/
def leNat : Nat → List Nat → Nat
  | 0, _ => 0
  | _ + 1, [] => 0
  | k + 1, b :: bs => b + 256 * leNat k bs

/-- XXH64 final avalanche. -/
def xxAvalanche (h0 : Nat) : Nat :=
  let h1 := xor64 h0 (h0 >>> 33)
  let h2 := mul64 h1 xxPrime2
  let h3 := xor64 h2 (h2 >>> 29)
  let h4 := mul64 h3 xxPrime3
  xor64 h4 (h4 >>> 32)

/-- Process the 32-byte stripes; `fuel` bounds the recursion. -/
def xxStripes (fuel : Nat) (v1 v2 v3 v4 : Nat) (bs : List Nat) :
    Nat × Nat × Nat × Nat × List Nat :=
  match fuel with
  | 0 => (v1, v2, v3, v4, bs)
  | fuel + 1 =>
    if bs.length < 32 then (v1, v2, v3, v4, bs)
    else
      xxStripes fuel
        (xxRound v1 (leNat 8 bs))
        (xxRound v2 (leNat 8 (bs.drop 8)))
        (xxRound v3 (leNat 8 (bs.drop 16)))
        (xxRound v4 (leNat 8 (bs.drop 24)))
        (bs.drop 32)

/-- Fold the ≤31-byte tail into the digest; `fuel` bounds the recursion. -/
def xxTail (fuel : Nat) (h : Nat) (bs : List Nat) : Nat :=
  match fuel with
  | 0 => h
  | fuel + 1 =>
    if 8 ≤ bs.length then
      xxTail fuel
        (add64 (mul64 (rotl64 (xor64 h (xxRound 0 (leNat 8 bs))) 27) xxPrime1) xxPrime4)
        (bs.drop 8)
    else if 4 ≤ bs.length then
      xxTail fuel
        (add64 (mul64 (rotl64 (xor64 h (mul64 (leNat 4 bs) xxPrime1)) 23) xxPrime2) xxPrime3)
        (bs.drop 4)
    else
      match bs with
      | [] => h
      | b :: rest =>
        xxTail fuel (mul64 (rotl64 (xor64 h (mul64 (b % 256) xxPrime5)) 11) xxPrime1) rest

/-- XXH64 with seed 0 over a byte list. -/
def xxh64 (bs : List Nat) : Nat :=
  let n := bs.length
  let hr : Nat × List Nat :=
    if 32 ≤ n then
      match xxStripes n (add64 xxPrime1 xxPrime2) xxPrime2 0 (sub64 0 xxPrime1) bs with
      | (v1, v2, v3, v4, rest) =>
        let h0 := add64 (add64 (rotl64 v1 1) (rotl64 v2 7)) (add64 (rotl64 v3 12) (rotl64 v4 18))
        (xxMergeRound (xxMergeRound (xxMergeRound (xxMergeRound h0 v1) v2) v3) v4, rest)
    else (xxPrime5, bs)
  xxAvalanche (xxTail n (add64 hr.1 n) hr.2)

/-- UTF-8 bytes of one character, as Go `[]byte(string)` produces them. -/
def charUtf8 (c : Char) : List Nat :=
  let n := c.toNat
  if n < 0x80 then [n]
  else if n < 0x800 then [0xC0 + n / 0x40, 0x80 + n % 0x40]
  else if n < 0x10000 then
    [0xE0 + n / 0x1000, 0x80 + n / 0x40 % 0x40, 0x80 + n % 0x40]
  else
    [0xF0 + n / 0x40000, 0x80 + n / 0x1000 % 0x40, 0x80 + n / 0x40 % 0x40, 0x80 + n % 0x40]

/-- UTF-8 byte list of a string. -/
def utf8Bytes (s : String) : List Nat :=
  s.data.flatMap charUtf8

/-- Lowercase hexadecimal rendering, as Go `fmt.Sprintf("%x", v)`. -/
def toHexStr (n : Nat) : String :=
  String.mk (Nat.toDigits 16 n)

/-! ## Go string operations

`MakeBinaries` and `cleanReleaseName` use `strings.Replace(s, old, new, -1)`
(all non-overlapping occurrences, leftmost first), `strings.TrimSpace`,
`strings.Index`, `strings.SplitN(s, sep, 2)`, `strings.Join` and
`strconv.Atoi`.  They are modelled over `List Char`; on the valid UTF-8
strings Go handles here the byte-wise and character-wise views agree.
-/

/-- Does `pat` occur at the front of `s`? -/
def prefAt : List Char → List Char → Bool
  | [], _ => true
  | _ :: _, [] => false
  | a :: as, b :: bs => a = b && prefAt as bs

/-- Fuel-driven core of `strings.Replace(s, pat, repl, -1)`:
replaces non-overlapping occurrences, leftmost first. -/
def replaceAllAux (pat repl : List Char) : Nat → List Char → List Char
  | 0, s => s
  | _ + 1, [] => []
  | fuel + 1, c :: rest =>
    if pat ≠ [] && prefAt pat (c :: rest) then
      repl ++ replaceAllAux pat repl fuel ((c :: rest).drop pat.length)
    else
      c :: replaceAllAux pat repl fuel rest

/-- Go `strings.Replace(s, pat, repl, -1)` (for the non-empty patterns used here). -/
def goReplace (s pat repl : String) : String :=
  String.mk (replaceAllAux pat.data repl.data s.data.length s.data)

/-- Go `strings.Index(s, "/") != -1`, i.e. the string contains a slash. -/
def hasSlash (s : String) : Bool :=
  s.data.any (· = '/')

/-- Go `strings.SplitN(s, "/", 2)[0]`: the text before the first slash. -/
def beforeSlash (s : String) : String :=
  String.mk (s.data.takeWhile (· ≠ '/'))

/-- Go `strings.SplitN(s, "/", 2)[1]`: the text after the first slash
(the code only reads it after checking a slash is present). -/
def afterSlash (s : String) : String :=
  String.mk ((s.data.dropWhile (· ≠ '/')).drop 1)

/-- ASCII whitespace recognised by `strings.TrimSpace` on the inputs here. -/
def isSpaceCh (c : Char) : Bool :=
  c = ' ' || c = '\t' || c = '\n' || c = '\r'

/-- Go `strings.TrimSpace`. -/
def goTrim (s : String) : String :=
  String.mk (((s.data.dropWhile isSpaceCh).reverse.dropWhile isSpaceCh).reverse)

/-- Go `strings.Join(xs, " ")`. -/
def joinSpace : List String → String
  | [] => ""
  | [x] => x
  | x :: xs => x ++ " " ++ joinSpace xs

def isDigitCh (c : Char) : Bool :=
  '0' ≤ c && c ≤ '9'

def digitVal (c : Char) : Nat := c.toNat - '0'.toNat

/-- Digits-to-value accumulator for `goAtoi`. -/
def digitsToNat : Nat → List Char → Nat
  | acc, [] => acc
  | acc, c :: cs => digitsToNat (acc * 10 + digitVal c) cs

/-- Go `strconv.Atoi`, with the error discarded as the caller does
(`totalparts, _ := strconv.Atoi(...)`): an optional sign followed by one
or more digits parses to its value, anything else yields 0.  The inputs
reaching it are at most three digits, so no 64-bit clamping is needed. -/
def goAtoi (s : String) : Int :=
  match s.data with
  | [] => 0
  | '-' :: ds =>
    if ds ≠ [] && ds.all isDigitCh then -(digitsToNat 0 ds : Int) else 0
  | '+' :: ds =>
    if ds ≠ [] && ds.all isDigitCh then (digitsToNat 0 ds : Int) else 0
  | ds =>
    if ds.all isDigitCh then (digitsToNat 0 ds : Int) else 0

/-! ## Data model

Row types of the relational store.  The `types` package defining these
records sits outside the extracted sources; the fields are those the
pipeline reads and writes, as the spec's data-model section lists them.
Go's `From` field is called `poster` here (`from` is a Lean keyword);
`Segment.size` carries the retrieved byte count that `Binary.Size()`
sums.  Primary keys are modelled as `Nat` ids, timestamps as `Nat`. -/

structure GroupRow where
  name : String
  active : Bool
  deriving DecidableEq, Repr

structure SegmentRow where
  id : Nat
  partId : Nat
  size : Nat
  deriving DecidableEq, Repr

structure PartRow where
  id : Nat
  subject : String
  group : String
  poster : String
  posted : Nat
  totalSegments : Nat
  binaryId : Option Nat
  deriving DecidableEq, Repr

structure BinaryRow where
  id : Nat
  hash : String
  name : String
  posted : Nat
  poster : String
  group : String
  totalParts : Int
  deriving DecidableEq, Repr

structure ReleaseRow where
  id : Nat
  name : String
  originalName : String
  searchName : String
  posted : Nat
  poster : String
  group : GroupRow
  size : Nat
  nzb : String
  deriving DecidableEq, Repr

/-- The relational store: one list of rows per table. -/
structure Store where
  groups : List GroupRow
  parts : List PartRow
  segments : List SegmentRow
  binaries : List BinaryRow
  releases : List ReleaseRow
  deriving DecidableEq, Repr

/-! ## Subject parsing pipeline of `MakeBinaries`

`MakeBinaries` matches each ungrouped part's subject against a primary
composite regex producing a named-capture map `m`, post-processes the
map (trim values, `reqid` fallback, name synthesis, secondary `PartRegex`
part lookup), normalizes the part-count string and splits it on the
first `/`.  The map is modelled as an association list in capture order;
the two regex collaborators (Go's `regexp` engine applied to the source
patterns) enter as the association list / fallback result per subject,
and executable matchers for the two source patterns are defined further
below for evaluating concrete subjects. -/

/-- Model of Go `m[k]` lookup on the capture map (first binding wins). -/
def lookupKey (m : List (String × String)) (k : String) : Option String :=
  (m.find? (fun kv => kv.1 = k)).map (·.2)

/-- Model of `hasNameAndParts` (db.go): both the `name` and `parts` keys are present. -/
def hasNameAndParts (m : List (String × String)) : Bool :=
  (lookupKey m "name").isSome && (lookupKey m "parts").isSome

/-- The part-count normalization applied when the captured string has no
slash: replace `-`, `~` and literal `" of "` by `/`, then strip the
bracket characters `[`, `]`, `(`, `)` (db.go lines 237–245). -/
def normalizeNoSlash (ps : String) : String :=
  let a := goReplace ps "-" "/"
  let b := goReplace a "~" "/"
  let c := goReplace b " of " "/"
  let d := goReplace c "[" ""
  let e := goReplace d "]" ""
  let f := goReplace e "(" ""
  goReplace f ")" ""

/-- The capture map after the fallback steps of db.go lines 201–229:
trim all values, copy `reqid` to `name` when `name` is absent, then
synthesize `name` by joining all values, then fill `parts` from the
secondary `PartRegex` match when the primary pattern gave none. -/
def resolveMap (m0 : List (String × String)) (fallbackParts : Option String) :
    List (String × String) :=
  let m1 := m0.map (fun kv => (kv.1, goTrim kv.2))
  let m2 :=
    match lookupKey m1 "reqid", lookupKey m1 "name" with
    | some rid, none => m1 ++ [("name", rid)]
    | _, _ => m1
  let m3 :=
    match lookupKey m2 "name" with
    | none => m2 ++ [("name", joinSpace (m2.map (·.2)))]
    | some _ => m2
  match lookupKey m3 "parts" with
  | none =>
    match fallbackParts with
    | some v => m3 ++ [("parts", v)]
    | none => m3
  | some _ => m3

/-- Per-part outcome of the parsing pipeline (db.go lines 201–252): `none`
when the part is skipped, otherwise the name and the `(index, total)`
split of the normalized part-count string. -/
def partParse (m0 : List (String × String)) (fallbackParts : Option String) :
    Option (String × String × String) :=
  let m := resolveMap m0 fallbackParts
  if hasNameAndParts m then
    let ps0 := (lookupKey m "parts").getD ""
    let ps := if hasSlash ps0 then ps0 else normalizeNoSlash ps0
    if hasSlash ps then
      some ((lookupKey m "name").getD "", beforeSlash ps, afterSlash ps)
    else none
  else none

/-- Model of `makeBinaryHash` (db.go lines 181–185): lowercase hex of the XXH64
digest of the concatenated key fields. -/
def makeBinaryHash (name group poster totalParts : String) : String :=
  toHexStr (xxh64 (utf8Bytes (name ++ group ++ poster ++ totalParts)))

/-! ## The Grouper: `MakeBinaries`

The run keeps an initially empty in-memory map from hash to binary and
upserts the accumulated binary after every part (gorm `Save` persists the
binary row and points every accumulated part's `binary_id` at it).  The
net store effect per accepted part is: create the binary row on the
hash's first occurrence (with this part's posted time and parsed total),
and point the part's `binary_id` at the mapped binary.  The regex
collaborators are parameters `primary` (capture map of the composite
pattern, empty list when it does not match) and `fallback` (the
`PartRegex` captured group). -/

/-- Parse outcome for one part under the given regex collaborators. -/
def parseOf (primary : String → List (String × String))
    (fallback : String → Option String) (p : PartRow) :
    Option (String × String × String) :=
  partParse (primary p.subject) (fallback p.subject)

/-- Point part `pid`'s `binary_id` at binary `bid` (the association
side-effect of gorm `Save` on the accumulated binary). -/
def setPartBinary (st : Store) (pid bid : Nat) : Store :=
  { st with parts := st.parts.map (fun q => if q.id = pid then { q with binaryId := some bid } else q) }

/-- Insert a freshly created binary row. -/
def addBinary (st : Store) (b : BinaryRow) : Store :=
  { st with binaries := st.binaries ++ [b] }

/-- The `MakeBinaries` loop over the ungrouped parts; `bmap` is the
in-memory hash-to-binary-id map, `nid` the next fresh binary id. -/
def makeBinariesLoop (primary : String → List (String × String))
    (fallback : String → Option String) :
    Store → List (String × Nat) → Nat → List PartRow → Store
  | st, _, _, [] => st
  | st, bmap, nid, p :: rest =>
    match parseOf primary fallback p with
    | none => makeBinariesLoop primary fallback st bmap nid rest
    | some (nm, _, total) =>
      let h := makeBinaryHash nm p.group p.poster total
      match bmap.find? (fun e => e.1 = h) with
      | some e => makeBinariesLoop primary fallback (setPartBinary st p.id e.2) bmap nid rest
      | none =>
        let bin : BinaryRow :=
          { id := nid, hash := h, name := nm, posted := p.posted,
            poster := p.poster, group := p.group, totalParts := goAtoi total }
        makeBinariesLoop primary fallback (setPartBinary (addBinary st bin) p.id nid)
          ((h, nid) :: bmap) (nid + 1) rest

/-- Fresh primary key for a new binary row. -/
def freshBinId (st : Store) : Nat :=
  (st.binaries.map (·.id)).foldr max 0 + 1

/-- Model of `MakeBinaries` (db.go lines 188–275), happy path: group every
ungrouped part (`binary_id is NULL`) by its hash key. -/
def makeBinaries (primary : String → List (String × String))
    (fallback : String → Option String) (st : Store) : Store :=
  makeBinariesLoop primary fallback st [] (freshBinId st)
    (st.parts.filter (fun p => p.binaryId = none))

/-! ## `cleanReleaseName` (db.go lines 277–289) -/

/-- Model of `removeChars` (db.go line 277). -/
def removeCharsList : List String :=
  ["#", "@", "$", "%", "^", "§", "¨", "©", "Ö"]

/-- Model of `spaceChars` (db.go line 278). -/
def spaceCharsList : List String :=
  ["_", ".", "-"]

/-- Model of `cleanReleaseName`: strip every `removeChars` entry, then replace
every `spaceChars` entry by a space. -/
def cleanReleaseName (name : String) : String :=
  let n1 := removeCharsList.foldl (fun n c => goReplace n c "") name
  spaceCharsList.foldl (fun n c => goReplace n c " ") n1

/-! ## The Completeness Evaluator (db.go lines 294–307)

The aggregate query inner-joins `part` to `segment` grouped by part (so a
part with no segments contributes no row and `available_segments` counts
a part's segment rows), joins that to `binary`, groups by binary and
keeps binaries with `count(*) >= total_parts` and
`(sum(available) / sum(total)) * 100 >= 100` — both sums are SQLite
INTEGERs, so the division truncates.  Output is ordered by posted time
descending (ties in a fixed order, unspecified in SQL). -/

/-- The `available_segments` of one part: its number of segment rows. -/
def partAvail (st : Store) (p : PartRow) : Nat :=
  (st.segments.filter (fun s => s.partId = p.id)).length

/-- The join rows of one binary: its parts having at least one segment. -/
def evaluatorRows (st : Store) (b : BinaryRow) : List PartRow :=
  st.parts.filter (fun p => p.binaryId = some b.id && 0 < partAvail st p)

/-- Aggregate `sum(part.available_segments)` over a binary's join rows. -/
def sumAvail (st : Store) (b : BinaryRow) : Nat :=
  ((evaluatorRows st b).map (fun p => partAvail st p)).sum

/-- Aggregate `sum(part.total_segments)` over a binary's join rows. -/
def sumTotal (st : Store) (b : BinaryRow) : Nat :=
  ((evaluatorRows st b).map (fun p => p.totalSegments)).sum

/-- The `HAVING` filter: the binary appears in the aggregate (it has at
least one join row) and passes both conditions.  The division is the
truncating SQLite integer division. -/
def isCandidate (st : Store) (b : BinaryRow) : Bool :=
  decide (evaluatorRows st b ≠ []) &&
  decide (b.totalParts ≤ ((evaluatorRows st b).length : Int)) &&
  decide (100 ≤ sumAvail st b / sumTotal st b * 100)

/-- The evaluator's output: qualifying binaries ordered by posted time
descending. -/
def candidateBinaries (st : Store) : List BinaryRow :=
  (st.binaries.filter (fun b => isCandidate st b)).insertionSort
    (fun a b => b.posted ≤ a.posted)

/-! ## The Release Promoter: `MakeReleases` (db.go lines 292–385)

The raw query scans only `id, name, posted, total_parts, group` into the
candidate rows — `from` and `hash` keep their zero value, so the release
is built with an empty poster.  Store reads/writes and the Manifest
Builder can fail; an explicit oracle, keyed by the candidate's binary id,
decides which call fails during the run.  A failed group lookup is logged
and execution continues to the `Release` literal, where Go dereferences
the nil `*types.Group` — modelled as the `panicked` outcome. -/

/-- One scanned candidate row of the raw aggregate query. -/
structure CandidateRow where
  id : Nat
  name : String
  posted : Nat
  totalParts : Int
  group : String
  deriving DecidableEq, Repr

/-- Failure oracle: which store/collaborator call fails for the
candidate with the given binary id. -/
structure Oracle where
  relLookupFails : Nat → Bool
  reloadFails : Nat → Bool
  nzbFails : Nat → Bool
  txSaveFails : Nat → Bool
  txDelPartsFails : Nat → Bool
  txDelSegsFails : Nat → Bool
  txDelBinFails : Nat → Bool

/-- The oracle of a run in which every call succeeds. -/
def happyOracle : Oracle :=
  ⟨fun _ => false, fun _ => false, fun _ => false, fun _ => false,
   fun _ => false, fun _ => false, fun _ => false⟩

/-- Outcome of processing one candidate / the whole batch. -/
inductive StepResult where
  | ok
  | err
  | panicked
  deriving DecidableEq, Repr

/-- Candidate row of a binary, as the aggregate query scans it. -/
def rowOf (b : BinaryRow) : CandidateRow :=
  { id := b.id, name := b.name, posted := b.posted,
    totalParts := b.totalParts, group := b.group }

/-- Model of `Binary.Size()` on the reloaded binary.  Modelled from the spec:
"Compute total size by summing retrieved bytes across all Segments" —
the `types` package holding the method is outside the extracted sources. -/
def binarySize (st : Store) (bid : Nat) : Nat :=
  ((st.segments.filter (fun s =>
    (st.parts.filter (fun p => p.binaryId = some bid)).any (fun p => p.id = s.partId))).map
      (fun s => s.size)).sum

/-- Model of `nzb.WriteNZB` on the reloaded binary.  Modelled from the spec: the
Manifest Builder is an external collaborator serializing the binary's
parts and segments into a download recipe; the payload is abstracted as
an opaque string of the binary's name (no claim depends on its shape). -/
def writeNZB (st : Store) (bid : Nat) (name : String) : String :=
  "<nzb>" ++ name ++ "</nzb>" ++ toHexStr (binarySize st bid)

/-- Fresh primary key for the release insert. -/
def freshRelId (st : Store) : Nat :=
  (st.releases.map (·.id)).foldr max 0 + 1

/-- The release row built for a candidate (db.go lines 340–349). -/
def newReleaseFor (st : Store) (b : CandidateRow) (g : GroupRow) : ReleaseRow :=
  { id := freshRelId st, name := b.name, originalName := b.name,
    searchName := cleanReleaseName b.name, posted := b.posted,
    poster := "", group := g, size := binarySize st b.id,
    nzb := writeNZB st b.id b.name }

/-- The committed transaction body (db.go lines 355–382): insert the
release, delete the binary's parts, delete those parts' segments, delete
the binary. -/
def promoteApply (st : Store) (b : CandidateRow) (g : GroupRow) : Store :=
  let partIds := (st.parts.filter (fun p => p.binaryId = some b.id)).map (·.id)
  { st with
    releases := st.releases ++ [newReleaseFor st b g],
    parts := st.parts.filter (fun p => ¬(p.binaryId = some b.id)),
    segments := st.segments.filter (fun s => ¬(s.partId ∈ partIds)),
    binaries := st.binaries.filter (fun x => ¬(x.id = b.id)) }

/-- Processing of one candidate (db.go lines 311–383).  Every failing
step before the transaction returns the error with the store untouched;
a failing transaction step rolls back to the entry store.  A duplicate
release (same name and posted time) is logged and skipped without any
deletion.  A missing group is logged, then crashes at `Group: *grp`. -/
def promoteCandidate (o : Oracle) (st : Store) (b : CandidateRow) :
    Store × StepResult :=
  if o.relLookupFails b.id then (st, .err)
  else
    match st.releases.find? (fun r => r.name = b.name && r.posted = b.posted) with
    | some _ => (st, .ok)
    | none =>
      if o.reloadFails b.id then (st, .err)
      else
        match st.binaries.find? (fun x => x.id = b.id) with
        | none => (st, .err)
        | some _ =>
          if o.nzbFails b.id then (st, .err)
          else
            match st.groups.find? (fun g => g.name = b.group) with
            | none => (st, .panicked)
            | some g =>
              if o.txSaveFails b.id then (st, .err)
              else if o.txDelPartsFails b.id then (st, .err)
              else if o.txDelSegsFails b.id then (st, .err)
              else if o.txDelBinFails b.id then (st, .err)
              else (promoteApply st b g, .ok)

/-- The `MakeReleases` candidate loop: sequential, aborting the batch on
the first error, propagating a crash. -/
def makeReleasesLoop (o : Oracle) : Store → List CandidateRow → Store × StepResult
  | st, [] => (st, .ok)
  | st, b :: rest =>
    match promoteCandidate o st b with
    | (st1, .ok) => makeReleasesLoop o st1 rest
    | (st1, .err) => (st1, .err)
    | (st1, .panicked) => (st1, .panicked)

/-- Model of `MakeReleases`: evaluate the aggregate query, then process each
candidate. -/
def makeReleases (o : Oracle) (st : Store) : Store × StepResult :=
  makeReleasesLoop o st ((candidateBinaries st).map rowOf)

/-! ## Executable matchers for the two source patterns

Go's `regexp` engine is an external collaborator; the two patterns it is
applied to are source constants.  The matchers below reproduce the
engine's leftmost-first backtracking semantics for exactly those two
patterns, so that concrete subjects can be evaluated:

* the primary composite pattern (db.go line 189)
  `(?i).*?(?P<parts>\d{1,3}/\d{1,3}).*?"(?P<name>.*?)\.(sample|mkv|…)`
* `PartRegex` (db.go line 173)
  `(?i)[\[( ]((\d{1,3}/\d{1,3})|(\d{1,3} of \d{1,3})|(\d{1,3}-\d{1,3})|(\d{1,3}~\d{1,3}))[)\] ]`
-/

def lowCh (c : Char) : Char := c.toLower

/-- The fixed literal alternatives of the extension allow-list
(lowercased; `r\d{1,3}`, `t\d{1,2}` and `u\d{1,3}` are handled apart). -/
def extLits : List (List Char) :=
  ["sample", "mkv", "avi", "mp4", "vol", "ogm", "par", "rar", "sfv", "nfo",
   "nzb", "srt", "ass", "mpg", "txt", "zip", "wmv", "ssa", "7z", "tar",
   "mov", "divx", "m2ts", "rmvb", "iso", "dmg", "sub", "idx", "rm",
   "ac3"].map String.data

/-- Case-insensitive match of the extension alternation at the front. -/
def extMatch (cs : List Char) : Bool :=
  extLits.any (fun e => prefAt e (cs.map lowCh)) ||
  (match cs with
   | c :: d :: _ =>
     (lowCh c = 'r' || lowCh c = 't' || lowCh c = 'u') && isDigitCh d
   | _ => false)

/-- Lazy scan for `(.*?)\.(ext…)`: the shortest name prefix followed by a
dot and an allow-listed extension; `acc` holds the reversed name so far. -/
def nameScan : List Char → List Char → Option (List Char)
  | _, [] => none
  | acc, '.' :: rest =>
    if extMatch rest then some acc.reverse else nameScan ('.' :: acc) rest
  | acc, c :: rest => nameScan (c :: acc) rest

/-- Lazy scan for `.*?\"(.*?)\.(ext…)`: try each quote left to right. -/
def tailScan : List Char → Option (List Char)
  | [] => none
  | '"' :: rest =>
    match nameScan [] rest with
    | some nm => some nm
    | none => tailScan rest
  | _ :: rest => tailScan rest

/-- Take exactly `k` leading digits. -/
def takeDigits (k : Nat) (cs : List Char) : Option (List Char × List Char) :=
  let ds := cs.take k
  if ds.length = k && ds.all isDigitCh then some (ds, cs.drop k) else none

/-- One greedy-quantifier choice for the primary pattern's
`\d{1,3}/\d{1,3}` followed by the name tail. -/
def tryD1D2 (cs : List Char) (d1 d2 : Nat) : Option (String × String) :=
  match takeDigits d1 cs with
  | none => none
  | some (a, r1) =>
    match r1 with
    | '/' :: r2 =>
      match takeDigits d2 r2 with
      | none => none
      | some (b, r3) =>
        match tailScan r3 with
        | some nm => some (String.mk (a ++ '/' :: b), String.mk nm)
        | none => none
    | _ => none

/-- Greedy `\d{1,3}` backtracking order: three digits down to one. -/
def tryPartsAt (cs : List Char) : Option (String × String) :=
  [3, 2, 1].foldl
    (fun acc d1 =>
      acc <|> [3, 2, 1].foldl (fun acc2 d2 => acc2 <|> tryD1D2 cs d1 d2) none)
    none

/-- Leftmost start position of the primary composite pattern. -/
def primaryAux : List Char → Option (String × String)
  | [] => none
  | c :: rest =>
    match tryPartsAt (c :: rest) with
    | some r => some r
    | none => primaryAux rest

/-- Model of `FindStringSubmatchMap` of the primary pattern: the named captures
`parts` and `name` in group order, the empty map when there is no match. -/
def primaryMatchMap (s : String) : List (String × String) :=
  match primaryAux s.data with
  | some (p, n) => [("parts", p), ("name", n)]
  | none => []

def openCh (c : Char) : Bool := c = '[' || c = '(' || c = ' '

def closeCh (c : Char) : Bool := c = ')' || c = ']' || c = ' '

/-- Case-insensitive separator match returning the original characters. -/
def sepMatchCI : List Char → List Char → Option (List Char × List Char)
  | [], rest => some ([], rest)
  | _ :: _, [] => none
  | p :: ps, c :: cs =>
    if lowCh c = p then
      match sepMatchCI ps cs with
      | some (m, r) => some (c :: m, r)
      | none => none
    else none

/-- One `PartRegex` alternative `\d{1,3} sep \d{1,3}` followed by a
closing character; digits greedy, capture keeps the original text. -/
def trySepAlt (sep : List Char) (cs : List Char) : Option (List Char) :=
  [3, 2, 1].foldl
    (fun acc d1 =>
      acc <|>
        (match takeDigits d1 cs with
         | none => none
         | some (a, r1) =>
           match sepMatchCI sep r1 with
           | none => none
           | some (m, r2) =>
             [3, 2, 1].foldl
               (fun acc2 d2 =>
                 acc2 <|>
                   (match takeDigits d2 r2 with
                    | none => none
                    | some (b, r3) =>
                      match r3 with
                      | c :: _ => if closeCh c then some (a ++ m ++ b) else none
                      | [] => none))
               none))
    none

/-- The `PartRegex` alternation, leftmost alternative first. -/
def partRegexInner (cs : List Char) : Option (List Char) :=
  trySepAlt ['/'] cs <|> trySepAlt [' ', 'o', 'f', ' '] cs <|>
    trySepAlt ['-'] cs <|> trySepAlt ['~'] cs

/-- Leftmost full match of `PartRegex`; returns the captured group 1. -/
def partRegexAux : List Char → Option String
  | [] => none
  | c :: rest =>
    if openCh c then
      match partRegexInner rest with
      | some g => some (String.mk g)
      | none => partRegexAux rest
    else partRegexAux rest

/-- Model of `PartRegex.FindStringSubmatch(subject)[1]` (db.go lines 173, 225–228). -/
def partRegexMatch (s : String) : Option String :=
  partRegexAux s.data

/-! # Theorems -/

/-! ## Single-character `strings.Replace` characterizations -/

theorem strMkData (l : List Char) : (String.mk l).data = l := rfl

theorem replaceAux_del (c : Char) :
    ∀ (n : Nat) (s : List Char), s.length ≤ n →
      replaceAllAux [c] [] n s = s.filter (fun x => x ≠ c) := by
  intro n
  induction n with
  | zero =>
    intro s hs
    cases s with
    | nil => simp [replaceAllAux]
    | cons a s => simp at hs
  | succ n ih =>
    intro s hs
    cases s with
    | nil => simp [replaceAllAux]
    | cons a s =>
      simp only [replaceAllAux, prefAt]
      by_cases hac : c = a
      · subst hac
        simp [ih s (by simpa using hs)]
      · simp [hac, Ne.symm hac, ih s (by simpa using hs)]

theorem replaceAux_subst (c d : Char) :
    ∀ (n : Nat) (s : List Char), s.length ≤ n →
      replaceAllAux [c] [d] n s = s.map (fun x => if x = c then d else x) := by
  intro n
  induction n with
  | zero =>
    intro s hs
    cases s with
    | nil => simp [replaceAllAux]
    | cons a s => simp at hs
  | succ n ih =>
    intro s hs
    cases s with
    | nil => simp [replaceAllAux]
    | cons a s =>
      simp only [replaceAllAux, prefAt]
      by_cases hac : c = a
      · subst hac
        simp [ih s (by simpa using hs)]
      · simp [hac, Ne.symm hac, ih s (by simpa using hs)]

theorem goReplace_del (s pat : String) (c : Char) (hp : pat.data = [c]) :
    goReplace s pat "" = String.mk (s.data.filter (fun x => x ≠ c)) := by
  have h := replaceAux_del c s.data.length s.data (le_refl _)
  simp only [goReplace, hp]
  rw [h]

theorem goReplace_subst (s pat repl : String) (c d : Char) (hp : pat.data = [c])
    (hr : repl.data = [d]) :
    goReplace s pat repl = String.mk (s.data.map (fun x => if x = c then d else x)) := by
  have h := replaceAux_subst c d s.data.length s.data (le_refl _)
  simp only [goReplace, hp, hr]
  rw [h]

/-! ## C9: name cleaning -/

/-- Claim-side denylist: the punctuation/symbol characters removed. -/
def removeCharSet : List Char := ['#', '@', '$', '%', '^', '§', '¨', '©', 'Ö']

/-- Claim-side separators: the characters replaced by a space. -/
def spaceCharSet : List Char := ['_', '.', '-']

/-- Claim-side cleaning: first remove every denylist character, then map
every separator character to a space. -/
def cleanSpec (name : String) : String :=
  String.mk ((name.data.filter (fun c => ¬ c ∈ removeCharSet)).map
    (fun c => if c ∈ spaceCharSet then ' ' else c))


theorem cleanFilterPred (a : Char) :
    (decide (a ≠ 'Ö') && (decide (a ≠ '©') && (decide (a ≠ '¨') && (decide (a ≠ '§') &&
      (decide (a ≠ '^') && (decide (a ≠ '%') && (decide (a ≠ '$') && (decide (a ≠ '@') &&
      decide (a ≠ '#'))))))))) = decide (a ∉ removeCharSet) := by
  by_cases h : a ∈ removeCharSet
  · simp only [removeCharSet, List.mem_cons, List.not_mem_nil, or_false] at h
    rcases h with rfl | rfl | rfl | rfl | rfl | rfl | rfl | rfl | rfl <;> decide
  · have h9 := h
    simp only [removeCharSet, List.mem_cons, List.not_mem_nil, or_false, not_or] at h9
    obtain ⟨h1, h2, h3, h4, h5, h6, h7, h8, h9⟩ := h9
    simp [h, h1, h2, h3, h4, h5, h6, h7, h8, h9]

theorem cleanMapFn (a : Char) :
    ((fun x => if x = '-' then ' ' else x) ∘ (fun x => if x = '.' then ' ' else x) ∘
      (fun x => if x = '_' then ' ' else x)) a = (if a ∈ spaceCharSet then ' ' else a) := by
  by_cases h : a ∈ spaceCharSet
  · simp only [spaceCharSet, List.mem_cons, List.not_mem_nil, or_false] at h
    rcases h with rfl | rfl | rfl <;> decide
  · have h3 := h
    simp only [spaceCharSet, List.mem_cons, List.not_mem_nil, or_false, not_or] at h3
    obtain ⟨k1, k2, k3⟩ := h3
    simp [h, k1, k2, k3, Function.comp]

theorem cleanChainEq (l : List Char) :
    ((((((((((((l.filter (fun x => x ≠ '#')).filter (fun x => x ≠ '@')).filter
      (fun x => x ≠ '$')).filter (fun x => x ≠ '%')).filter (fun x => x ≠ '^')).filter
      (fun x => x ≠ '§')).filter (fun x => x ≠ '¨')).filter (fun x => x ≠ '©')).filter
      (fun x => x ≠ 'Ö')).map (fun x => if x = '_' then ' ' else x)).map
      (fun x => if x = '.' then ' ' else x)).map (fun x => if x = '-' then ' ' else x)) =
    (l.filter (fun c => ¬ c ∈ removeCharSet)).map (fun c => if c ∈ spaceCharSet then ' ' else c) := by
  simp only [List.map_map, List.filter_filter]
  rw [List.filter_congr (fun a _ => cleanFilterPred a)]
  exact List.map_congr_left (fun a _ => cleanMapFn a)

/-- C9: for every name string, `cleanReleaseName` first removes every
character of the fixed denylist and then replaces every underscore,
period and hyphen with a space; in particular
`clean("My.Movie_Name-2020#@") = "My Movie Name 2020"`. -/
theorem cleanReleaseName_strips_then_spaces :
    (∀ name : String, cleanReleaseName name = cleanSpec name) ∧
    cleanReleaseName "My.Movie_Name-2020#@" = "My Movie Name 2020" := by
  constructor
  · intro name
    simp only [cleanReleaseName, removeCharsList, spaceCharsList, List.foldl]
    rw [goReplace_del _ _ '#' rfl, goReplace_del _ _ '@' rfl, goReplace_del _ _ '$' rfl,
        goReplace_del _ _ '%' rfl, goReplace_del _ _ '^' rfl, goReplace_del _ _ '§' rfl,
        goReplace_del _ _ '¨' rfl, goReplace_del _ _ '©' rfl, goReplace_del _ _ 'Ö' rfl,
        goReplace_subst _ _ _ '_' ' ' rfl rfl, goReplace_subst _ _ _ '.' ' ' rfl rfl,
        goReplace_subst _ _ _ '-' ' ' rfl rfl]
    simp only [strMkData, cleanSpec]
    exact congrArg String.mk (cleanChainEq name.data)
  · decide

/-! ## C8: part-count normalization and the skip condition -/

/-- Claim-side normalization of a captured part-count string: when no
slash is present, replace `-`, `~` and literal `" of "` by `/`, then
strip the bracket/parenthesis characters. -/
def claimNormalize (ps : String) : String :=
  if hasSlash ps then ps
  else
    goReplace (goReplace (goReplace (goReplace (goReplace (goReplace (goReplace
      ps "-" "/") "~" "/") " of " "/") "[" "") "]" "") "(" "") ")" ""

theorem claimNormalize_eq (ps : String) :
    (if hasSlash ps then ps else normalizeNoSlash ps) = claimNormalize ps := by
  simp only [claimNormalize, normalizeNoSlash]

/-- The parsing pipeline as one case split over the resolved capture map. -/
theorem partParse_eq (m0 : List (String × String)) (fb : Option String) :
    partParse m0 fb =
      match lookupKey (resolveMap m0 fb) "name", lookupKey (resolveMap m0 fb) "parts" with
      | some nm, some ps =>
        if hasSlash (claimNormalize ps) then
          some (nm, beforeSlash (claimNormalize ps), afterSlash (claimNormalize ps))
        else none
      | _, _ => none := by
  unfold partParse hasNameAndParts
  cases hn : lookupKey (resolveMap m0 fb) "name" with
  | none => simp [hn]
  | some nm =>
    cases hp : lookupKey (resolveMap m0 fb) "parts" with
    | none => simp [hn, hp]
    | some ps =>
      simp only [hn, hp, Option.isSome_some, Bool.and_self, if_true, Option.getD_some]
      rw [claimNormalize_eq]

/-- C8: the pipeline normalizes a slash-less part-count string by the
replace-and-strip steps and splits the normalized string on its first
slash; a part is skipped exactly when name and parts cannot both be
determined or the normalized string still lacks a slash. -/
theorem partParse_normalization_and_skip (m0 : List (String × String)) (fb : Option String) :
    (partParse m0 fb = none ↔
      hasNameAndParts (resolveMap m0 fb) = false ∨
      ∃ ps, lookupKey (resolveMap m0 fb) "parts" = some ps ∧
        hasSlash (claimNormalize ps) = false) ∧
    (∀ nm ps, lookupKey (resolveMap m0 fb) "name" = some nm →
      lookupKey (resolveMap m0 fb) "parts" = some ps →
      hasSlash (claimNormalize ps) = true →
      partParse m0 fb =
        some (nm, beforeSlash (claimNormalize ps), afterSlash (claimNormalize ps))) := by
  constructor
  · rw [partParse_eq]
    cases hn : lookupKey (resolveMap m0 fb) "name" with
    | none =>
      simp [hasNameAndParts, hn]
    | some nm =>
      cases hp : lookupKey (resolveMap m0 fb) "parts" with
      | none =>
        simp [hasNameAndParts, hn, hp]
      | some ps =>
        by_cases hsl : hasSlash (claimNormalize ps)
        · simp [hasNameAndParts, hn, hp, hsl]
        · simp only [Bool.not_eq_true] at hsl
          simp [hasNameAndParts, hn, hp, hsl]
  · intro nm ps hn hp hsl
    rw [partParse_eq, hn, hp]
    simp [hsl]

theorem partParse_normalization_and_skip_witness :
    partParse [("parts", "3~12")] none = some ("3~12", "3", "12") ∧
    partParse [("name", "x")] none = none := by
  constructor
  · have h := (partParse_normalization_and_skip [("parts", "3~12")] none).2 "3~12" "3~12"
      (by decide) (by decide) (by decide)
    rw [h]; decide
  · exact (partParse_normalization_and_skip [("name", "x")] none).1.mpr (Or.inl (by decide))

/-! ## C10: the Grouper keys on the raw total-parts string -/

def pC10a : PartRow :=
  { id := 1, subject := "[1/34] - \"Foo.mkv\" yEnc", group := "g", poster := "f",
    posted := 5, totalSegments := 1, binaryId := none }

def pC10b : PartRow :=
  { id := 2, subject := "[01/034] - \"Foo.mkv\" yEnc", group := "g", poster := "f",
    posted := 6, totalSegments := 1, binaryId := none }

def stC10 : Store :=
  { groups := [], parts := [pC10a, pC10b], segments := [], binaries := [], releases := [] }

/-- C10: two ungrouped parts with the same parsed name, group and poster
whose subjects carry numerically equal but textually different totals
(`34` vs `034`) hash differently and are grouped into two distinct
binaries, each storing the same integer `total_parts`. -/
theorem makeBinaries_splits_textual_totals :
    parseOf primaryMatchMap partRegexMatch pC10a = some ("Foo", "1", "34") ∧
    parseOf primaryMatchMap partRegexMatch pC10b = some ("Foo", "01", "034") ∧
    goAtoi "34" = 34 ∧ goAtoi "034" = 34 ∧
    makeBinaryHash "Foo" "g" "f" "34" ≠ makeBinaryHash "Foo" "g" "f" "034" ∧
    ((makeBinaries primaryMatchMap partRegexMatch stC10).binaries.map
      (fun b => (b.hash, b.totalParts))) =
      [(makeBinaryHash "Foo" "g" "f" "34", 34), (makeBinaryHash "Foo" "g" "f" "034", 34)] ∧
    ((makeBinaries primaryMatchMap partRegexMatch stC10).parts.map (fun p => p.binaryId)) =
      [some 1, some 2] := by
  refine ⟨by decide, by decide, by decide, by decide, by decide, by decide, by decide⟩

/-! ## C7: grouping per tuple vs grouping per hash key -/

def pC7a : PartRow :=
  { id := 1, subject := "[1/2] - \"n.mkv\" yEnc", group := "ab", poster := "c",
    posted := 10, totalSegments := 1, binaryId := none }

def pC7b : PartRow :=
  { id := 2, subject := "[1/2] - \"n.mkv\" yEnc", group := "a", poster := "bc",
    posted := 11, totalSegments := 1, binaryId := none }

def stC7 : Store :=
  { groups := [], parts := [pC7a, pC7b], segments := [], binaries := [], releases := [] }

/-- Claim-side grouping correctness, from C7's words: after the run,
every accepted ungrouped part has exactly one binary whose
(name, group, poster, total-parts) tuple matches its parse, and the
part's binary reference points at that binary. -/
def groupedPerTuple (primary : String → List (String × String))
    (fallback : String → Option String) (st st2 : Store) : Bool :=
  (st.parts.filter (fun p => p.binaryId = none)).all (fun p =>
    match parseOf primary fallback p with
    | none => true
    | some (nm, _, total) =>
      decide ((st2.binaries.filter (fun b =>
        b.name = nm && b.group = p.group && b.poster = p.poster &&
        b.totalParts = goAtoi total)).length = 1) &&
      (match st2.binaries.find? (fun b => b.name = nm && b.group = p.group &&
          b.poster = p.poster && b.totalParts = goAtoi total),
        st2.parts.find? (fun q => q.id = p.id) with
       | some b, some q => q.binaryId = some b.id
       | _, _ => false))

/-- C7 counterexample: two accepted parts with distinct
(name, group, poster, total-parts) tuples whose concatenated hash keys
coincide (`"n"+"ab"+"c"+"2"` and `"n"+"a"+"bc"+"2"`) are merged into a
single binary, so there is no binary for the second part's tuple: the
claimed one-binary-per-tuple grouping fails on this store. -/
theorem grouper_tuple_counterexample :
    parseOf primaryMatchMap partRegexMatch pC7a = some ("n", "1", "2") ∧
    parseOf primaryMatchMap partRegexMatch pC7b = some ("n", "1", "2") ∧
    (pC7a.group, pC7a.poster) ≠ (pC7b.group, pC7b.poster) ∧
    makeBinaryHash "n" "ab" "c" "2" = makeBinaryHash "n" "a" "bc" "2" ∧
    (makeBinaries primaryMatchMap partRegexMatch stC7).binaries.length = 1 ∧
    groupedPerTuple primaryMatchMap partRegexMatch stC7
      (makeBinaries primaryMatchMap partRegexMatch stC7) = false := by
  refine ⟨by decide, by decide, by decide, by decide, by decide, by decide⟩

/-! ## C4: group-resolution failure crashes the promoter -/

def stC4 : Store :=
  { groups := [{ name := "alt.other", active := true }],
    parts := [{ id := 1, subject := "s", group := "alt.x", poster := "p",
                posted := 7, totalSegments := 1, binaryId := some 1 }],
    segments := [{ id := 1, partId := 1, size := 100 }],
    binaries := [{ id := 1, hash := "h", name := "Name", posted := 7,
                   poster := "p", group := "alt.x", totalParts := 1 }],
    releases := [] }

/-- C4 (code bug): a complete candidate binary whose group name has no
row in the group table makes `MakeReleases` crash instead of continuing:
after logging the failed lookup, the code dereferences the nil
`*types.Group` in the `Release` literal (`Group: *grp`), so no release
is produced and the batch dies. -/
theorem groupLookupFailureCrashes :
    (stC4.binaries.map (fun b => isCandidate stC4 b)) = [true] ∧
    makeReleases happyOracle stC4 = (stC4, StepResult.panicked) := by
  constructor <;> decide

/-! ## C5: duplicate-release handling -/

/-- C5: a candidate whose (name, posted) pair matches an existing
release is skipped without an error: no second release is inserted and
none of the binary's rows are deleted — the store is returned unchanged. -/
theorem duplicateReleaseSkipsUnchanged (o : Oracle) (st : Store) (b : CandidateRow)
    (hdup : ∃ r ∈ st.releases, r.name = b.name ∧ r.posted = b.posted)
    (hok : o.relLookupFails b.id = false) :
    promoteCandidate o st b = (st, StepResult.ok) := by
  obtain ⟨r, hr, hn, hp⟩ := hdup
  have hfind : (st.releases.find? (fun r => r.name = b.name && r.posted = b.posted)).isSome := by
    rw [List.find?_isSome]
    exact ⟨r, hr, by simp [hn, hp]⟩
  obtain ⟨r2, hr2⟩ := Option.isSome_iff_exists.1 hfind
  unfold promoteCandidate
  rw [hok, hr2]
  simp

def grpC5 : GroupRow := { name := "g", active := true }

def binC5 : BinaryRow :=
  { id := 1, hash := "h", name := "N", posted := 3, poster := "p",
    group := "g", totalParts := 1 }

def relC5 : ReleaseRow :=
  { id := 1, name := "N", originalName := "N", searchName := "N", posted := 3,
    poster := "", group := grpC5, size := 10, nzb := "x" }

def stC5 : Store :=
  { groups := [grpC5],
    parts := [{ id := 1, subject := "s", group := "g", poster := "p",
                posted := 3, totalSegments := 1, binaryId := some 1 }],
    segments := [{ id := 1, partId := 1, size := 10 }],
    binaries := [binC5],
    releases := [relC5] }

theorem duplicateReleaseSkipsUnchanged_witness :
    promoteCandidate happyOracle stC5 (rowOf binC5) = (stC5, StepResult.ok) :=
  duplicateReleaseSkipsUnchanged happyOracle stC5 (rowOf binC5)
    ⟨relC5, by decide, by decide, by decide⟩ (by decide)

/-! ## C2: transactional rollback of the promotion -/

/-- C2: for a candidate that reaches the transaction (no duplicate, the
binary reloads, the group resolves, the manifest builds), a failure of
any of the four transaction steps — release insert, part delete, segment
delete, binary delete — rolls the whole transaction back: the store is
returned unchanged together with the error, so the binary and all its
rows survive and stay eligible for the next run. -/
theorem txFailureRollsBack (o : Oracle) (st : Store) (b : CandidateRow)
    (h1 : o.relLookupFails b.id = false)
    (h2 : st.releases.find? (fun r => r.name = b.name && r.posted = b.posted) = none)
    (h3 : o.reloadFails b.id = false)
    (h4 : (st.binaries.find? (fun x => x.id = b.id)).isSome)
    (h5 : o.nzbFails b.id = false)
    (h6 : (st.groups.find? (fun g => g.name = b.group)).isSome)
    (hfail : o.txSaveFails b.id = true ∨ o.txDelPartsFails b.id = true ∨
             o.txDelSegsFails b.id = true ∨ o.txDelBinFails b.id = true) :
    promoteCandidate o st b = (st, StepResult.err) := by
  obtain ⟨bb, hbb⟩ := Option.isSome_iff_exists.1 h4
  obtain ⟨g, hg⟩ := Option.isSome_iff_exists.1 h6
  unfold promoteCandidate
  rw [h1, h2, h3, hbb, h5, hg]
  rcases hfail with hf | hf | hf | hf <;> simp [hf]

def grpC2 : GroupRow := { name := "g", active := true }

def binC2 : BinaryRow :=
  { id := 1, hash := "h", name := "N", posted := 4, poster := "p",
    group := "g", totalParts := 1 }

def stC2 : Store :=
  { groups := [grpC2],
    parts := [{ id := 1, subject := "s", group := "g", poster := "p",
                posted := 4, totalSegments := 1, binaryId := some 1 }],
    segments := [{ id := 1, partId := 1, size := 10 }],
    binaries := [binC2],
    releases := [] }

def oC2 : Oracle := { happyOracle with txDelSegsFails := fun i => i == 1 }

theorem txFailureRollsBack_witness :
    promoteCandidate oC2 stC2 (rowOf binC2) = (stC2, StepResult.err) :=
  txFailureRollsBack oC2 stC2 (rowOf binC2) (by decide) (by decide) (by decide)
    (by decide) (by decide) (by decide) (Or.inr (Or.inr (Or.inl (by decide))))

/-! ## C3: a candidate failure aborts the batch -/

theorem promoteCandidate_err_state (o : Oracle) (st : Store) (b : CandidateRow) {st2 : Store}
    (h : promoteCandidate o st b = (st2, StepResult.err)) : st2 = st := by
  unfold promoteCandidate at h
  repeat' split at h
  all_goals simp_all

def grpC3 : GroupRow := { name := "g", active := true }

def binC3a : BinaryRow :=
  { id := 1, hash := "h1", name := "A", posted := 20, poster := "p",
    group := "g", totalParts := 1 }

def binC3b : BinaryRow :=
  { id := 2, hash := "h2", name := "B", posted := 10, poster := "p",
    group := "g", totalParts := 1 }

def stC3 : Store :=
  { groups := [grpC3],
    parts := [{ id := 1, subject := "sa", group := "g", poster := "p",
                posted := 20, totalSegments := 1, binaryId := some 1 },
              { id := 2, subject := "sb", group := "g", poster := "p",
                posted := 10, totalSegments := 1, binaryId := some 2 }],
    segments := [{ id := 1, partId := 1, size := 5 }, { id := 2, partId := 2, size := 5 }],
    binaries := [binC3a, binC3b],
    releases := [] }

def oC3 : Oracle := { happyOracle with nzbFails := fun i => i == 1 }

/-- C3 counterexample: two complete candidates, and the Manifest Builder
fails for the first.  `MakeReleases` returns the error at once with the
store unchanged: the second candidate is never processed — no release is
created for it although it is a ready, non-duplicate candidate — which
refutes the claim that the batch continues past a failing candidate. -/
theorem promoterAbortCounterexample :
    ((candidateBinaries stC3).map rowOf) = [rowOf binC3a, rowOf binC3b] ∧
    makeReleases oC3 stC3 = (stC3, StepResult.err) ∧
    stC3.releases = [] := by
  refine ⟨by decide, by decide, rfl⟩

/-- C3 amended: when processing a candidate fails with a store or
manifest error, `MakeReleases` aborts the batch immediately: the failing
candidate's work is rolled back (the store is as before it) and the
remaining candidates are not processed in this run. -/
theorem promoterErrorAbortsBatch (o : Oracle) (st : Store) (c : CandidateRow)
    (cs : List CandidateRow) (st2 : Store)
    (h : promoteCandidate o st c = (st2, StepResult.err)) :
    st2 = st ∧ makeReleasesLoop o st (c :: cs) = (st, StepResult.err) := by
  have he := promoteCandidate_err_state o st c h
  refine ⟨he, ?_⟩
  unfold makeReleasesLoop
  rw [h, he]

theorem promoterErrorAbortsBatch_witness :
    makeReleasesLoop oC3 stC3 [rowOf binC3a, rowOf binC3b] = (stC3, StepResult.err) :=
  (promoterErrorAbortsBatch oC3 stC3 (rowOf binC3a) [rowOf binC3b] stC3 (by decide)).2

/-! ## C1: the Completeness Evaluator -/

/-- Claim-side completeness: at least `total_parts` parts counted via
their segments, and the summed segment availability across those parts
reaches 100% — in exact rational arithmetic, so an empty join or a zero
segment total cannot reach 100%. -/
def completeSpec (st : Store) (b : BinaryRow) : Prop :=
  b.totalParts ≤ ((evaluatorRows st b).length : Int) ∧
  (100 : ℚ) ≤ (sumAvail st b : ℚ) / (sumTotal st b : ℚ) * 100

theorem isCandidate_iff_completeSpec (st : Store) (b : BinaryRow) :
    isCandidate st b = true ↔ completeSpec st b := by
  unfold isCandidate completeSpec
  simp only [Bool.and_eq_true, decide_eq_true_eq]
  constructor
  · rintro ⟨⟨hne, hcnt⟩, hdiv⟩
    refine ⟨hcnt, ?_⟩
    have hT : 0 < sumTotal st b := by
      by_contra hT0
      push_neg at hT0
      have hz : sumTotal st b = 0 := Nat.le_zero.1 hT0
      rw [hz] at hdiv
      simp at hdiv
    have h1 : 1 ≤ sumAvail st b / sumTotal st b := by
      by_contra h0
      push_neg at h0
      have hz : sumAvail st b / sumTotal st b = 0 := Nat.lt_one_iff.1 h0
      rw [hz] at hdiv
      simp at hdiv
    have hTA : sumTotal st b ≤ sumAvail st b := (Nat.one_le_div_iff hT).1 h1
    have hTq : (0 : ℚ) < (sumTotal st b : ℚ) := by exact_mod_cast hT
    have hq : (1 : ℚ) ≤ (sumAvail st b : ℚ) / (sumTotal st b : ℚ) :=
      (one_le_div hTq).2 (by exact_mod_cast hTA)
    nlinarith [hq]
  · rintro ⟨hcnt, hdiv⟩
    have hT : 0 < sumTotal st b := by
      by_contra hT0
      push_neg at hT0
      have hz : sumTotal st b = 0 := Nat.le_zero.1 hT0
      rw [hz] at hdiv
      norm_num at hdiv
    have hTq : (0 : ℚ) < (sumTotal st b : ℚ) := by exact_mod_cast hT
    have h1 : (1 : ℚ) ≤ (sumAvail st b : ℚ) / (sumTotal st b : ℚ) := by nlinarith [hdiv]
    have hTA : sumTotal st b ≤ sumAvail st b := by
      exact_mod_cast (one_le_div hTq).1 h1
    have hne : evaluatorRows st b ≠ [] := by
      intro hnil
      unfold sumTotal at hT
      rw [hnil] at hT
      simp at hT
    refine ⟨⟨hne, hcnt⟩, ?_⟩
    have hd : 1 ≤ sumAvail st b / sumTotal st b := (Nat.one_le_div_iff hT).2 hTA
    calc (100 : Nat) = 1 * 100 := by norm_num
    _ ≤ sumAvail st b / sumTotal st b * 100 := Nat.mul_le_mul_right _ hd

def stC1 : Store :=
  { groups := [],
    parts := [{ id := 1, subject := "a1", group := "g", poster := "p",
                posted := 1, totalSegments := 2, binaryId := some 1 },
              { id := 2, subject := "a2", group := "g", poster := "p",
                posted := 1, totalSegments := 2, binaryId := some 1 },
              { id := 3, subject := "a3", group := "g", poster := "p",
                posted := 1, totalSegments := 2, binaryId := some 1 },
              { id := 4, subject := "b1", group := "g", poster := "p",
                posted := 2, totalSegments := 2, binaryId := some 2 },
              { id := 5, subject := "b2", group := "g", poster := "p",
                posted := 2, totalSegments := 2, binaryId := some 2 },
              { id := 6, subject := "c1", group := "g", poster := "p",
                posted := 3, totalSegments := 2, binaryId := some 3 },
              { id := 7, subject := "c2", group := "g", poster := "p",
                posted := 3, totalSegments := 2, binaryId := some 3 },
              { id := 8, subject := "c3", group := "g", poster := "p",
                posted := 3, totalSegments := 2, binaryId := some 3 }],
    segments := [{ id := 1, partId := 1, size := 1 }, { id := 2, partId := 1, size := 1 },
                 { id := 3, partId := 2, size := 1 }, { id := 4, partId := 2, size := 1 },
                 { id := 5, partId := 3, size := 1 }, { id := 6, partId := 3, size := 1 },
                 { id := 7, partId := 4, size := 1 }, { id := 8, partId := 4, size := 1 },
                 { id := 9, partId := 5, size := 1 }, { id := 10, partId := 5, size := 1 },
                 { id := 11, partId := 6, size := 1 }, { id := 12, partId := 6, size := 1 },
                 { id := 13, partId := 7, size := 1 }, { id := 14, partId := 7, size := 1 },
                 { id := 15, partId := 8, size := 1 }],
    binaries := [{ id := 1, hash := "h1", name := "A", posted := 1, poster := "p",
                   group := "g", totalParts := 3 },
                 { id := 2, hash := "h2", name := "B", posted := 2, poster := "p",
                   group := "g", totalParts := 3 },
                 { id := 3, hash := "h3", name := "C", posted := 3, poster := "p",
                   group := "g", totalParts := 3 }],
    releases := [] }

/-- C1: a binary is returned by the Completeness Evaluator iff it has at
least `total_parts` parts (counted via their segments) and the summed
segment availability across its parts reaches 100%.  Concretely on
`stC1`: the binary with `total_parts = 3` and three fully available
parts (id 1) is returned; the one missing a part (id 2) and the one with
a part at 1 of 2 segments (id 3) are not. -/
theorem evaluatorReturnsCompleteBinaries :
    (∀ (st : Store) (b : BinaryRow),
      b ∈ candidateBinaries st ↔ b ∈ st.binaries ∧ completeSpec st b) ∧
    ((candidateBinaries stC1).map (fun b => b.id)) = [1] := by
  constructor
  · intro st b
    unfold candidateBinaries
    rw [List.mem_insertionSort, List.mem_filter, isCandidate_iff_completeSpec]
  · decide

/-! ## C7 amended: the Grouper groups by hash key -/

/-- The hash key a part would group under, when its subject parses. -/
def hashKeyOf (primary : String → List (String × String))
    (fallback : String → Option String) (p : PartRow) : Option String :=
  (parseOf primary fallback p).map (fun r => makeBinaryHash r.1 p.group p.poster r.2.2)

theorem find_map_setBin (pid bid x : Nat) (hx : x ≠ pid) :
    ∀ l : List PartRow,
      (l.map (fun q => if q.id = pid then { q with binaryId := some bid } else q)).find?
        (fun q => q.id = x) = l.find? (fun q => q.id = x)
  | [] => rfl
  | a :: l => by
    simp only [List.map_cons, List.find?_cons]
    by_cases h : a.id = pid
    · rw [if_pos h]
      have e1 : (decide (({ a with binaryId := some bid } : PartRow).id = x)) = false := by
        simp [h, Ne.symm hx]
      rw [e1]
      exact find_map_setBin pid bid x hx l
    · rw [if_neg h]
      cases hd : decide (a.id = x) with
      | true => rfl
      | false => exact find_map_setBin pid bid x hx l

theorem find_map_setBin_self (pid bid : Nat) :
    ∀ l : List PartRow, ∀ q : PartRow, l.find? (fun r => r.id = pid) = some q →
      (l.map (fun r => if r.id = pid then { r with binaryId := some bid } else r)).find?
        (fun r => r.id = pid) = some { q with binaryId := some bid }
  | [], q, h => by simp [List.find?] at h
  | a :: l, q, h => by
    simp only [List.find?_cons] at h
    simp only [List.map_cons, List.find?_cons]
    by_cases ha : a.id = pid
    · rw [if_pos ha]
      rw [decide_eq_true ha] at h
      have e1 : (decide (({ a with binaryId := some bid } : PartRow).id = pid)) = true := by
        simp [ha]
      rw [e1]
      cases h
      rfl
    · rw [if_neg ha]
      rw [decide_eq_false ha] at h
      have e2 : (decide (a.id = pid)) = false := decide_eq_false ha
      rw [e2]
      exact find_map_setBin_self pid bid l q h

theorem find_id_of_mem :
    ∀ (l : List PartRow), (l.map (fun p => p.id)).Nodup →
      ∀ p ∈ l, l.find? (fun q => q.id = p.id) = some p
  | [], _, p, hp => absurd hp (List.not_mem_nil p)
  | a :: l, hnd, p, hp => by
    simp only [List.map_cons, List.nodup_cons] at hnd
    rcases List.mem_cons.1 hp with rfl | hp2
    · simp [List.find?_cons]
    · have hne : a.id ≠ p.id := by
        intro he
        exact hnd.1 (he ▸ List.mem_map_of_mem (fun q => q.id) hp2)
      simp only [List.find?_cons, decide_eq_false hne]
      exact find_id_of_mem l hnd.2 p hp2

theorem eq_of_mem_id (l : List PartRow) (hnd : (l.map (fun p => p.id)).Nodup)
    (a b : PartRow) (ha : a ∈ l) (hb : b ∈ l) (hid : a.id = b.id) : a = b := by
  have h1 := find_id_of_mem l hnd a ha
  have h2 := find_id_of_mem l hnd b hb
  rw [hid] at h1
  rw [h1] at h2
  exact (Option.some.injEq _ _ ▸ h2 : a = b)

/-- The binary row `MakeBinaries` creates on the first occurrence of a
hash key: fields from the creating part and the parsed total. -/
def newBinRow (nid : Nat) (nm : String) (p : PartRow) (total : String) : BinaryRow :=
  { id := nid, hash := makeBinaryHash nm p.group p.poster total, name := nm,
    posted := p.posted, poster := p.poster, group := p.group, totalParts := goAtoi total }

theorem makeBinariesLoop_spec (primary : String → List (String × String))
    (fallback : String → Option String) (queue : List PartRow) :
    ∀ (cur : Store) (bmap : List (String × Nat)) (nid : Nat),
    (cur.binaries.map (fun b => b.hash)).Nodup →
    bmap = (cur.binaries.map (fun b => (b.hash, b.id))).reverse →
    (∀ b ∈ cur.binaries, b.id < nid) →
    (queue.map (fun p => p.id)).Nodup →
    (∀ p ∈ queue, cur.parts.find? (fun q => q.id = p.id) = some p) →
    (((makeBinariesLoop primary fallback cur bmap nid queue).binaries.map
        (fun b => b.hash)).Nodup ∧
     (∀ b ∈ cur.binaries, b ∈ (makeBinariesLoop primary fallback cur bmap nid queue).binaries) ∧
     (∀ p ∈ queue, ∀ nm i total, parseOf primary fallback p = some (nm, i, total) →
        ∃ b, b ∈ (makeBinariesLoop primary fallback cur bmap nid queue).binaries ∧
          b.hash = makeBinaryHash nm p.group p.poster total ∧
          (makeBinariesLoop primary fallback cur bmap nid queue).parts.find?
            (fun q => q.id = p.id) = some { p with binaryId := some b.id }) ∧
     (∀ b ∈ (makeBinariesLoop primary fallback cur bmap nid queue).binaries,
        b ∈ cur.binaries ∨
        (¬ b.hash ∈ cur.binaries.map (fun x => x.hash) ∧
         ∃ p, queue.find? (fun q => hashKeyOf primary fallback q = some b.hash) = some p ∧
           ∃ nm i total, parseOf primary fallback p = some (nm, i, total) ∧
             b.name = nm ∧ b.posted = p.posted ∧ b.poster = p.poster ∧
             b.group = p.group ∧ b.totalParts = goAtoi total)) ∧
     (∀ x : Nat, (∀ p ∈ queue, p.id = x → parseOf primary fallback p = none) →
        (makeBinariesLoop primary fallback cur bmap nid queue).parts.find?
          (fun q => q.id = x) = cur.parts.find? (fun q => q.id = x))) := by
  induction queue with
  | nil =>
    intro cur bmap nid h1 h2 h3 h4 h5
    refine ⟨h1, fun b hb => hb, ?_, ?_, ?_⟩
    · intro p hp
      exact absurd hp (List.not_mem_nil p)
    · intro b hb
      exact Or.inl hb
    · intro x _
      rfl
  | cons p rest ih =>
    intro cur bmap nid h1 h2 h3 h4 h5
    have h4' : (rest.map (fun q => q.id)).Nodup := by
      simp only [List.map_cons, List.nodup_cons] at h4
      exact h4.2
    have hpid : ∀ q ∈ rest, q.id ≠ p.id := by
      intro q hq he
      simp only [List.map_cons, List.nodup_cons] at h4
      exact h4.1 (he ▸ List.mem_map_of_mem (fun r => r.id) hq)
    cases hpf : parseOf primary fallback p with
    | none =>
      have hloop : makeBinariesLoop primary fallback cur bmap nid (p :: rest) =
          makeBinariesLoop primary fallback cur bmap nid rest := by
        simp only [makeBinariesLoop, hpf]
      rw [hloop]
      have h5' : ∀ q ∈ rest, cur.parts.find? (fun r => r.id = q.id) = some q :=
        fun q hq => h5 q (List.mem_cons_of_mem p hq)
      obtain ⟨c1, c6, c2, c3, c5⟩ := ih cur bmap nid h1 h2 h3 h4' h5'
      refine ⟨c1, c6, ?_, ?_, ?_⟩
      · intro q hq nm i total hq2
        rcases List.mem_cons.1 hq with rfl | hq3
        · rw [hpf] at hq2
          cases hq2
        · exact c2 q hq3 nm i total hq2
      · intro b hb
        rcases c3 b hb with hL | ⟨hnm, q, hfind, rest2⟩
        · exact Or.inl hL
        · refine Or.inr ⟨hnm, q, ?_, rest2⟩
          rw [List.find?_cons]
          have hpred : (decide (hashKeyOf primary fallback p = some b.hash)) = false := by
            simp [hashKeyOf, hpf]
          rw [hpred]
          exact hfind
      · intro x hx
        exact c5 x (fun q hq hqe => hx q (List.mem_cons_of_mem p hq) hqe)
    | some r =>
      obtain ⟨nm, i, total⟩ := r
      have hkey : hashKeyOf primary fallback p =
          some (makeBinaryHash nm p.group p.poster total) := by
        simp [hashKeyOf, hpf]
      cases hbm : bmap.find? (fun e => e.1 = makeBinaryHash nm p.group p.poster total) with
      | some e =>
        have he1 : e.1 = makeBinaryHash nm p.group p.poster total := by
          have := List.find?_some hbm
          exact of_decide_eq_true this
        have hmem : e ∈ bmap := List.mem_of_find?_eq_some hbm
        rw [h2, List.mem_reverse] at hmem
        obtain ⟨b0, hb0mem, hb0eq⟩ := List.mem_map.1 hmem
        have hb0hash : b0.hash = makeBinaryHash nm p.group p.poster total := by
          rw [← he1, ← hb0eq]
        have hb0id : b0.id = e.2 := by rw [← hb0eq]
        have hloop : makeBinariesLoop primary fallback cur bmap nid (p :: rest) =
            makeBinariesLoop primary fallback (setPartBinary cur p.id e.2) bmap nid rest := by
          simp only [makeBinariesLoop, hpf, hbm]
        rw [hloop]
        have hbineq : (setPartBinary cur p.id e.2).binaries = cur.binaries := rfl
        have h5' : ∀ q ∈ rest,
            (setPartBinary cur p.id e.2).parts.find? (fun r => r.id = q.id) = some q := by
          intro q hq
          have : (setPartBinary cur p.id e.2).parts =
              cur.parts.map (fun r => if r.id = p.id then { r with binaryId := some e.2 } else r) := rfl
          rw [this, find_map_setBin p.id e.2 q.id (hpid q hq) cur.parts]
          exact h5 q (List.mem_cons_of_mem p hq)
        obtain ⟨c1, c6, c2, c3, c5⟩ :=
          ih (setPartBinary cur p.id e.2) bmap nid (by rw [hbineq]; exact h1)
            (by rw [hbineq]; exact h2) (by rw [hbineq]; exact h3) h4' h5'
        refine ⟨c1, fun b hb => c6 b (by rw [hbineq]; exact hb), ?_, ?_, ?_⟩
        · intro q hq nm2 i2 total2 hq2
          rcases List.mem_cons.1 hq with rfl | hq3
          · rw [hpf] at hq2
            cases hq2
            refine ⟨b0, c6 b0 (by rw [hbineq]; exact hb0mem), hb0hash, ?_⟩
            have hfix := c5 q.id (fun q2 hq2 hqe => absurd hqe (hpid q2 hq2))
            rw [hfix]
            have hps : (setPartBinary cur q.id e.2).parts =
                cur.parts.map (fun r => if r.id = q.id then { r with binaryId := some e.2 } else r) := rfl
            rw [hps, find_map_setBin_self q.id e.2 cur.parts q (h5 q (List.mem_cons_self q rest))]
            rw [hb0id]
          · exact c2 q hq3 nm2 i2 total2 hq2
        · intro b hb
          rcases c3 b hb with hL | ⟨hnm, q, hfind, rest2⟩
          · exact Or.inl (by rw [hbineq] at hL; exact hL)
          · rw [hbineq] at hnm
            refine Or.inr ⟨hnm, q, ?_, rest2⟩
            rw [List.find?_cons]
            have hbne : b.hash ≠ makeBinaryHash nm p.group p.poster total := by
              intro he
              exact hnm (he ▸ hb0hash ▸ List.mem_map_of_mem (fun x => x.hash) hb0mem)
            have hpred : (decide (hashKeyOf primary fallback p = some b.hash)) = false := by
              simp [hkey]
              exact fun he => hbne he.symm
            rw [hpred]
            exact hfind
        · intro x hx
          have hxp : p.id ≠ x := by
            intro he
            have := hx p (List.mem_cons_self p rest) he
            rw [hpf] at this
            cases this
          have hstep := c5 x (fun q hq hqe => hx q (List.mem_cons_of_mem p hq) hqe)
          rw [hstep]
          have hps : (setPartBinary cur p.id e.2).parts =
              cur.parts.map (fun r => if r.id = p.id then { r with binaryId := some e.2 } else r) := rfl
          rw [hps, find_map_setBin p.id e.2 x (fun he => hxp he.symm) cur.parts]
      | none =>
        have hnotin : ¬ makeBinaryHash nm p.group p.poster total ∈
            cur.binaries.map (fun x => x.hash) := by
          intro hin
          obtain ⟨b0, hb0mem, hb0eq⟩ := List.mem_map.1 hin
          have hbm2 : (b0.hash, b0.id) ∈ bmap := by
            rw [h2, List.mem_reverse]
            exact List.mem_map_of_mem (fun b => (b.hash, b.id)) hb0mem
          have := List.find?_eq_none.1 hbm _ hbm2
          simp at this
          exact this hb0eq
        have hloop : makeBinariesLoop primary fallback cur bmap nid (p :: rest) =
            makeBinariesLoop primary fallback
              (setPartBinary (addBinary cur (newBinRow nid nm p total)) p.id nid)
              ((makeBinaryHash nm p.group p.poster total, nid) :: bmap) (nid + 1) rest := by
          simp only [makeBinariesLoop, hpf, hbm, newBinRow]
        rw [hloop]
        have hbineq : (setPartBinary (addBinary cur (newBinRow nid nm p total)) p.id nid).binaries =
            cur.binaries ++ [newBinRow nid nm p total] := rfl
        have h1' : (((setPartBinary (addBinary cur (newBinRow nid nm p total))
            p.id nid).binaries.map (fun b => b.hash)).Nodup) := by
          rw [hbineq]
          simp only [List.map_append, List.map_cons, List.map_nil]
          rw [List.nodup_append]
          refine ⟨h1, List.nodup_singleton _, ?_⟩
          intro a ha hb
          simp only [List.mem_singleton] at hb
          rw [hb] at ha
          exact hnotin ha
        have h2' : ((makeBinaryHash nm p.group p.poster total, nid) :: bmap) =
            ((setPartBinary (addBinary cur (newBinRow nid nm p total)) p.id nid).binaries.map
              (fun b => (b.hash, b.id))).reverse := by
          rw [hbineq]
          simp only [List.map_append, List.map_cons, List.map_nil, List.reverse_append,
            List.reverse_cons, List.reverse_nil, List.nil_append, List.cons_append]
          rw [h2]
          rfl
        have h3' : ∀ b ∈ (setPartBinary (addBinary cur (newBinRow nid nm p total))
            p.id nid).binaries, b.id < nid + 1 := by
          rw [hbineq]
          intro b hb
          rcases List.mem_append.1 hb with hb | hb
          · exact Nat.lt_succ_of_lt (h3 b hb)
          · simp only [List.mem_singleton] at hb
            rw [hb]
            exact Nat.lt_succ_self nid
        have h5' : ∀ q ∈ rest, (setPartBinary (addBinary cur (newBinRow nid nm p total))
            p.id nid).parts.find? (fun r => r.id = q.id) = some q := by
          intro q hq
          have hps : (setPartBinary (addBinary cur (newBinRow nid nm p total)) p.id nid).parts =
              cur.parts.map (fun r => if r.id = p.id then { r with binaryId := some nid } else r) := rfl
          rw [hps, find_map_setBin p.id nid q.id (hpid q hq) cur.parts]
          exact h5 q (List.mem_cons_of_mem p hq)
        obtain ⟨c1, c6, c2, c3, c5⟩ := ih _ _ _ h1' h2' h3' h4' h5'
        refine ⟨c1, ?_, ?_, ?_, ?_⟩
        · intro b hb
          refine c6 b ?_
          rw [hbineq]
          exact List.mem_append_left _ hb
        · intro q hq nm2 i2 total2 hq2
          rcases List.mem_cons.1 hq with rfl | hq3
          · rw [hpf] at hq2
            cases hq2
            refine ⟨newBinRow nid nm q total, ?_, rfl, ?_⟩
            · refine c6 _ ?_
              rw [hbineq]
              exact List.mem_append_right _ (List.mem_singleton_self _)
            · have hfix := c5 q.id (fun q2 hq2 hqe => absurd hqe (hpid q2 hq2))
              rw [hfix]
              have hps : (setPartBinary (addBinary cur (newBinRow nid nm q total)) q.id nid).parts =
                  cur.parts.map (fun r => if r.id = q.id then { r with binaryId := some nid } else r) := rfl
              rw [hps, find_map_setBin_self q.id nid cur.parts q (h5 q (List.mem_cons_self q rest))]
              rfl
          · exact c2 q hq3 nm2 i2 total2 hq2
        · intro b hb
          rcases c3 b hb with hL | ⟨hnm, q, hfind, rest2⟩
          · rw [hbineq] at hL
            rcases List.mem_append.1 hL with hL | hL
            · exact Or.inl hL
            · simp only [List.mem_singleton] at hL
              refine Or.inr ⟨?_, p, ?_, nm, i, total, hpf, ?_⟩
              · rw [hL]
                exact hnotin
              · rw [List.find?_cons]
                have hpred : (decide (hashKeyOf primary fallback p = some b.hash)) = true := by
                  rw [hL]
                  simp [hkey]
                  rfl
                rw [hpred]
              · rw [hL]
                exact ⟨rfl, rfl, rfl, rfl, rfl⟩
          · rw [hbineq] at hnm
            simp only [List.map_append, List.map_cons, List.map_nil, List.mem_append,
              List.mem_singleton, not_or] at hnm
            obtain ⟨hnm1, hnm2⟩ := hnm
            refine Or.inr ⟨by simpa using hnm1, q, ?_, rest2⟩
            rw [List.find?_cons]
            have hpred : (decide (hashKeyOf primary fallback p = some b.hash)) = false := by
              simp [hkey]
              intro he
              exact hnm2 he.symm
            rw [hpred]
            exact hfind
        · intro x hx
          have hxp : p.id ≠ x := by
            intro he
            have := hx p (List.mem_cons_self p rest) he
            rw [hpf] at this
            cases this
          have hstep := c5 x (fun q hq hqe => hx q (List.mem_cons_of_mem p hq) hqe)
          rw [hstep]
          have hps : (setPartBinary (addBinary cur (newBinRow nid nm p total)) p.id nid).parts =
              cur.parts.map (fun r => if r.id = p.id then { r with binaryId := some nid } else r) := rfl
          rw [hps, find_map_setBin p.id nid x (fun he => hxp he.symm) cur.parts]

/-- C7 amended: starting from a store with no pre-existing binaries and
with distinct part ids, one Grouper run leaves exactly one binary per
distinct hash key `makeBinaryHash(name, group, poster, totalPartsString)`:
every accepted ungrouped part's binary reference points at the binary of
its hash key; each binary is created from the first accepted ungrouped
part carrying its key, taking that part's posted time, poster, group and
the parsed integer total; already-grouped or unaccepted parts are left
untouched.  Distinct (name, group, poster, total-parts) tuples share one
binary exactly when their hash keys coincide. -/
theorem grouperGroupsByHashKey (primary : String → List (String × String))
    (fallback : String → Option String) (st : Store)
    (hB : st.binaries = [])
    (hP : (st.parts.map (fun p => p.id)).Nodup) :
    (((makeBinaries primary fallback st).binaries.map (fun b => b.hash)).Nodup) ∧
    (∀ p ∈ st.parts, p.binaryId = none →
      ∀ nm i total, parseOf primary fallback p = some (nm, i, total) →
        ∃ b, b ∈ (makeBinaries primary fallback st).binaries ∧
          b.hash = makeBinaryHash nm p.group p.poster total ∧
          (makeBinaries primary fallback st).parts.find? (fun q => q.id = p.id) =
            some { p with binaryId := some b.id }) ∧
    (∀ b ∈ (makeBinaries primary fallback st).binaries,
      ∃ p, (st.parts.filter (fun q => q.binaryId = none)).find?
          (fun q => hashKeyOf primary fallback q = some b.hash) = some p ∧
        ∃ nm i total, parseOf primary fallback p = some (nm, i, total) ∧
          b.name = nm ∧ b.posted = p.posted ∧ b.poster = p.poster ∧
          b.group = p.group ∧ b.totalParts = goAtoi total) ∧
    (∀ p ∈ st.parts, (p.binaryId ≠ none ∨ parseOf primary fallback p = none) →
      (makeBinaries primary fallback st).parts.find? (fun q => q.id = p.id) = some p) := by
  have hq4 : ((st.parts.filter (fun p => p.binaryId = none)).map (fun p => p.id)).Nodup :=
    List.Nodup.sublist (List.Sublist.map _ (List.filter_sublist _)) hP
  have hq5 : ∀ p ∈ st.parts.filter (fun p => p.binaryId = none),
      st.parts.find? (fun q => q.id = p.id) = some p :=
    fun p hp => find_id_of_mem st.parts hP p (List.mem_filter.1 hp).1
  have h1 : (st.binaries.map (fun b => b.hash)).Nodup := by
    rw [hB]; exact List.nodup_nil
  have h2 : ([] : List (String × Nat)) = (st.binaries.map (fun b => (b.hash, b.id))).reverse := by
    rw [hB]; rfl
  have h3 : ∀ b ∈ st.binaries, b.id < freshBinId st := by
    rw [hB]; intro b hb; exact absurd hb (List.not_mem_nil b)
  obtain ⟨c1, _, c2, c3, c5⟩ := makeBinariesLoop_spec primary fallback
    (st.parts.filter (fun p => p.binaryId = none)) st [] (freshBinId st) h1 h2 h3 hq4 hq5
  refine ⟨c1, ?_, ?_, ?_⟩
  · intro p hp hpb nm i total hpf
    exact c2 p (List.mem_filter.2 ⟨hp, by simp [hpb]⟩) nm i total hpf
  · intro b hb
    rcases c3 b hb with hL | ⟨_, p, hfind, rest2⟩
    · rw [hB] at hL
      exact absurd hL (List.not_mem_nil b)
    · exact ⟨p, hfind, rest2⟩
  · intro p hp hside
    have hpre : ∀ q ∈ st.parts.filter (fun r => r.binaryId = none), q.id = p.id →
        parseOf primary fallback q = none := by
      intro q hq hqe
      have hqm := List.mem_filter.1 hq
      have hqp : q = p := eq_of_mem_id st.parts hP q p hqm.1 hp hqe
      rcases hside with hb | hparse
      · exfalso
        apply hb
        rw [← hqp]
        exact of_decide_eq_true hqm.2
      · rw [hqp]
        exact hparse
    exact (c5 p.id hpre).trans (find_id_of_mem st.parts hP p hp)

def pC7w : PartRow :=
  { id := 1, subject := "[1/2] - \"w.mkv\" yEnc", group := "gr", poster := "po",
    posted := 9, totalSegments := 1, binaryId := none }

def stC7w : Store :=
  { groups := [], parts := [pC7w], segments := [], binaries := [], releases := [] }

theorem grouperGroupsByHashKey_witness :
    ((makeBinaries primaryMatchMap partRegexMatch stC7w).binaries.map (fun b => b.hash)).Nodup ∧
    (∃ b, b ∈ (makeBinaries primaryMatchMap partRegexMatch stC7w).binaries ∧
      b.hash = makeBinaryHash "w" "gr" "po" "2" ∧
      (makeBinaries primaryMatchMap partRegexMatch stC7w).parts.find? (fun q => q.id = pC7w.id) =
        some { pC7w with binaryId := some b.id }) := by
  refine ⟨(grouperGroupsByHashKey primaryMatchMap partRegexMatch stC7w rfl (by decide)).1, ?_⟩
  exact (grouperGroupsByHashKey primaryMatchMap partRegexMatch stC7w rfl (by decide)).2.1
    pC7w (by decide) (by decide) "w" "1" "2" (by decide)

/-! ## C6: idempotence of the promoter -/

theorem eq_of_mem_key {α β : Type} [DecidableEq β] (f : α → β) :
    ∀ (l : List α), (l.map f).Nodup → ∀ a ∈ l, ∀ b ∈ l, f a = f b → a = b
  | [], _, a, ha, _, _, _ => absurd ha (List.not_mem_nil a)
  | x :: l, hnd, a, ha, b, hb, hab => by
    simp only [List.map_cons, List.nodup_cons] at hnd
    rcases List.mem_cons.1 ha with rfl | ha2
    · rcases List.mem_cons.1 hb with rfl | hb2
      · rfl
      · exact absurd (hab ▸ List.mem_map_of_mem f hb2) hnd.1
    · rcases List.mem_cons.1 hb with rfl | hb2
      · exact absurd (hab ▸ List.mem_map_of_mem f ha2) hnd.1
      · exact eq_of_mem_key f l hnd.2 a ha2 b hb2 hab

/-- A release with the candidate's (name, posted) key exists. -/
def hasRelKey (st : Store) (b : CandidateRow) : Prop :=
  ∃ r ∈ st.releases, r.name = b.name ∧ r.posted = b.posted

/-- Number of releases carrying a given (name, posted) key. -/
def keyCount (rels : List ReleaseRow) (nm : String) (po : Nat) : Nat :=
  (rels.filter (fun r => r.name = nm && r.posted = po)).length

theorem keyCount_append (l l2 : List ReleaseRow) (nm : String) (po : Nat) :
    keyCount (l ++ l2) nm po = keyCount l nm po + keyCount l2 nm po := by
  simp [keyCount, List.filter_append]

theorem hasRelKey_iff_find (st : Store) (b : CandidateRow) :
    hasRelKey st b ↔
      (st.releases.find? (fun r => r.name = b.name && r.posted = b.posted)).isSome := by
  rw [List.find?_isSome]
  constructor
  · rintro ⟨r, hr, h1, h2⟩
    exact ⟨r, hr, by simp [h1, h2]⟩
  · rintro ⟨r, hr, h⟩
    simp only [Bool.and_eq_true, decide_eq_true_eq] at h
    exact ⟨r, hr, h.1, h.2⟩

/-- Shared helper: the duplicate-release skip leaves the store unchanged. -/
theorem promote_dup_skip (o : Oracle) (st : Store) (b : CandidateRow)
    (hdup : hasRelKey st b) (hok : o.relLookupFails b.id = false) :
    promoteCandidate o st b = (st, StepResult.ok) := by
  obtain ⟨r2, hr2⟩ := Option.isSome_iff_exists.1 ((hasRelKey_iff_find st b).1 hdup)
  unfold promoteCandidate
  rw [hok, hr2]
  simp

/-- Shared helper: the fully successful promotion applies the
transaction body. -/
theorem promote_happy_apply (st : Store) (b : CandidateRow) (g : GroupRow)
    (hnd : st.releases.find? (fun r => r.name = b.name && r.posted = b.posted) = none)
    (hbb : (st.binaries.find? (fun x => x.id = b.id)).isSome)
    (hg : st.groups.find? (fun x => x.name = b.group) = some g) :
    promoteCandidate happyOracle st b = (promoteApply st b g, StepResult.ok) := by
  obtain ⟨bb, hbb2⟩ := Option.isSome_iff_exists.1 hbb
  unfold promoteCandidate
  rw [hnd, hbb2, hg]
  rfl

/-- One candidate never decreases a key's release count, and leaves a
key that is already present untouched. -/
theorem promote_keyCount (o : Oracle) (st : Store) (b : CandidateRow)
    (st2 : Store) (res : StepResult) (h : promoteCandidate o st b = (st2, res))
    (nm : String) (po : Nat) :
    keyCount st.releases nm po ≤ keyCount st2.releases nm po ∧
    (1 ≤ keyCount st.releases nm po →
      keyCount st2.releases nm po = keyCount st.releases nm po) := by
  unfold promoteCandidate at h
  split at h
  · cases h; exact ⟨le_refl _, fun _ => rfl⟩
  · split at h
    · cases h; exact ⟨le_refl _, fun _ => rfl⟩
    · rename_i hfind
      split at h
      · cases h; exact ⟨le_refl _, fun _ => rfl⟩
      · split at h
        · cases h; exact ⟨le_refl _, fun _ => rfl⟩
        · split at h
          · cases h; exact ⟨le_refl _, fun _ => rfl⟩
          · split at h
            · cases h; exact ⟨le_refl _, fun _ => rfl⟩
            · rename_i g hgfind
              split at h
              · cases h; exact ⟨le_refl _, fun _ => rfl⟩
              · split at h
                · cases h; exact ⟨le_refl _, fun _ => rfl⟩
                · split at h
                  · cases h; exact ⟨le_refl _, fun _ => rfl⟩
                  · split at h
                    · cases h; exact ⟨le_refl _, fun _ => rfl⟩
                    · cases h
                      have hrel : (promoteApply st b g).releases =
                          st.releases ++ [newReleaseFor st b g] := rfl
                      rw [hrel, keyCount_append]
                      constructor
                      · exact Nat.le_add_right _ _
                      · intro h1
                        have h0 : keyCount st.releases b.name b.posted = 0 := by
                          unfold keyCount
                          rw [List.length_eq_zero]
                          rw [List.filter_eq_nil_iff]
                          intro r hr
                          have := List.find?_eq_none.1 hfind r hr
                          simpa using this
                        have : keyCount [newReleaseFor st b g] nm po = 0 := by
                          unfold keyCount
                          simp only [List.filter]
                          by_cases hk : nm = b.name ∧ po = b.posted
                          · exfalso
                            rw [hk.1, hk.2] at h1
                            rw [h0] at h1
                            exact absurd h1 (by norm_num)
                          · have : ((newReleaseFor st b g).name = nm &&
                                (newReleaseFor st b g).posted = po) = false := by
                              have hn : (newReleaseFor st b g).name = b.name := rfl
                              have hp : (newReleaseFor st b g).posted = b.posted := rfl
                              rw [hn, hp]
                              rcases not_and_or.1 hk with hne | hne
                              · simp
                                intro he
                                exact absurd he.symm hne
                              · simp
                                intro he
                                exact fun hpo => absurd hpo.symm hne
                            rw [this]
                            rfl
                        rw [this]
                        omega

theorem loop_keyCount (o : Oracle) :
    ∀ (cs : List CandidateRow) (st st2 : Store) (res : StepResult),
      makeReleasesLoop o st cs = (st2, res) → ∀ (nm : String) (po : Nat),
      keyCount st.releases nm po ≤ keyCount st2.releases nm po ∧
      (1 ≤ keyCount st.releases nm po →
        keyCount st2.releases nm po = keyCount st.releases nm po)
  | [], st, st2, res, h, nm, po => by
    unfold makeReleasesLoop at h
    cases h
    exact ⟨le_refl _, fun _ => rfl⟩
  | c :: cs, st, st2, res, h, nm, po => by
    unfold makeReleasesLoop at h
    cases hp : promoteCandidate o st c with
    | mk st1 r1 =>
      rw [hp] at h
      cases r1 with
      | ok =>
        have h1 := promote_keyCount o st c st1 _ hp nm po
        have h2 := loop_keyCount o cs st1 st2 res h nm po
        refine ⟨le_trans h1.1 h2.1, fun hk => ?_⟩
        rw [h2.2 (le_trans hk h1.1), h1.2 hk]
      | err =>
        cases h
        exact promote_keyCount o st c st2 _ hp nm po
      | panicked =>
        cases h
        exact promote_keyCount o st c st2 _ hp nm po

theorem loop_all_dup :
    ∀ (cs : List CandidateRow) (st : Store),
      (∀ c ∈ cs, hasRelKey st c) →
      makeReleasesLoop happyOracle st cs = (st, StepResult.ok)
  | [], _, _ => rfl
  | c :: cs, st, h => by
    unfold makeReleasesLoop
    rw [promote_dup_skip happyOracle st c (h c (List.mem_cons_self c cs)) rfl]
    exact loop_all_dup cs st (fun c2 hc2 => h c2 (List.mem_cons_of_mem c hc2))

/-- The store after promoting the binaries with ids in `D` out of the
original store `st0` and appending the releases `R`: their binary rows,
their parts and those parts' segments are gone. -/
def stripSt (st0 : Store) (D : List Nat) (R : List ReleaseRow) : Store :=
  { groups := st0.groups,
    parts := st0.parts.filter (fun p => ¬ ∃ d ∈ D, p.binaryId = some d),
    segments := st0.segments.filter (fun s =>
      ¬ ∃ p ∈ st0.parts, p.id = s.partId ∧ ∃ d ∈ D, p.binaryId = some d),
    binaries := st0.binaries.filter (fun b => ¬ b.id ∈ D),
    releases := st0.releases ++ R }

theorem stripSt_nil (st0 : Store) :
    stripSt st0 [] [] = st0 := by
  unfold stripSt
  cases st0 with
  | mk g p s b r =>
    simp

theorem parts_strip_of_bid (st0 : Store) (D : List Nat) (R : List ReleaseRow) (i : Nat)
    (hi : ¬ i ∈ D) :
    (stripSt st0 D R).parts.filter (fun p => p.binaryId = some i) =
      st0.parts.filter (fun p => p.binaryId = some i) := by
  unfold stripSt
  rw [List.filter_filter]
  apply List.filter_congr
  intro p _
  by_cases hb : p.binaryId = some i
  · simp only [hb, decide_eq_true_eq]
    simp only [Option.some.injEq]
    have h1 : ¬ ∃ d ∈ D, i = d := by
      rintro ⟨d, hd, rfl⟩
      exact hi hd
    simp [h1]
  · simp [hb]

theorem segAvail_strip (st0 : Store) (D : List Nat) (R : List ReleaseRow)
    (hWFp : (st0.parts.map (fun p => p.id)).Nodup) (p : PartRow) (hp : p ∈ st0.parts)
    (i : Nat) (hi : ¬ i ∈ D) (hbid : p.binaryId = some i) :
    partAvail (stripSt st0 D R) p = partAvail st0 p := by
  unfold partAvail stripSt
  rw [List.filter_filter]
  congr 1
  apply List.filter_congr
  intro s _
  by_cases hsp : s.partId = p.id
  · have hQ2 : ∀ q ∈ st0.parts, q.id = p.id → ∀ d ∈ D, ¬ q.binaryId = some d := by
      intro q hq he d hd hbd
      have hqp : q = p :=
        eq_of_mem_key (fun r => r.id) st0.parts hWFp q hq p hp (by show q.id = p.id; exact he)
      rw [hqp, hbid] at hbd
      cases hbd
      exact hi hd
    simp [hsp]
    exact hQ2
  · simp [hsp]

theorem evaluatorRows_strip (st0 : Store) (D : List Nat) (R : List ReleaseRow)
    (hWFp : (st0.parts.map (fun p => p.id)).Nodup) (b2 : BinaryRow) (hb2 : ¬ b2.id ∈ D) :
    evaluatorRows (stripSt st0 D R) b2 = evaluatorRows st0 b2 := by
  unfold evaluatorRows
  have hparts : (stripSt st0 D R).parts =
      st0.parts.filter (fun p => ¬ ∃ d ∈ D, p.binaryId = some d) := rfl
  rw [hparts, List.filter_filter]
  apply List.filter_congr
  intro p hp
  by_cases hb : p.binaryId = some b2.id
  · have h1 : ¬ ∃ d ∈ D, p.binaryId = some d := by
      rintro ⟨d, hd, hbd⟩
      rw [hb] at hbd
      cases hbd
      exact hb2 hd
    have h2 : partAvail (stripSt st0 D R) p = partAvail st0 p :=
      segAvail_strip st0 D R hWFp p hp b2.id hb2 hb
    simp [h1, h2]
  · simp [hb]

theorem sumAvail_strip (st0 : Store) (D : List Nat) (R : List ReleaseRow)
    (hWFp : (st0.parts.map (fun p => p.id)).Nodup) (b2 : BinaryRow) (hb2 : ¬ b2.id ∈ D) :
    sumAvail (stripSt st0 D R) b2 = sumAvail st0 b2 := by
  unfold sumAvail
  rw [evaluatorRows_strip st0 D R hWFp b2 hb2]
  congr 1
  apply List.map_congr_left
  intro p hp
  have hm := List.mem_filter.1 hp
  have h2 := hm.2
  simp only [Bool.and_eq_true, decide_eq_true_eq] at h2
  exact segAvail_strip st0 D R hWFp p hm.1 b2.id hb2 h2.1

theorem sumTotal_strip (st0 : Store) (D : List Nat) (R : List ReleaseRow)
    (hWFp : (st0.parts.map (fun p => p.id)).Nodup) (b2 : BinaryRow) (hb2 : ¬ b2.id ∈ D) :
    sumTotal (stripSt st0 D R) b2 = sumTotal st0 b2 := by
  unfold sumTotal
  rw [evaluatorRows_strip st0 D R hWFp b2 hb2]

theorem isCandidate_strip (st0 : Store) (D : List Nat) (R : List ReleaseRow)
    (hWFp : (st0.parts.map (fun p => p.id)).Nodup) (b2 : BinaryRow) (hb2 : ¬ b2.id ∈ D) :
    isCandidate (stripSt st0 D R) b2 = isCandidate st0 b2 := by
  unfold isCandidate
  rw [evaluatorRows_strip st0 D R hWFp b2 hb2, sumAvail_strip st0 D R hWFp b2 hb2,
    sumTotal_strip st0 D R hWFp b2 hb2]

theorem promoteApply_strip (st0 : Store) (D : List Nat) (R : List ReleaseRow)
    (b : CandidateRow) (g : GroupRow)
    (_hWFp : (st0.parts.map (fun p => p.id)).Nodup) (hb : ¬ b.id ∈ D) :
    promoteApply (stripSt st0 D R) b g =
      stripSt st0 (D ++ [b.id]) (R ++ [newReleaseFor (stripSt st0 D R) b g]) := by
  have hpartIds2 :
      ((List.filter (fun p => decide (p.binaryId = some b.id))
        (List.filter (fun p => decide ¬∃ d ∈ D, p.binaryId = some d) st0.parts)).map
          (fun p => p.id)) =
      ((st0.parts.filter (fun p => p.binaryId = some b.id)).map (fun p => p.id)) := by
    exact congrArg (List.map (fun p => p.id)) (parts_strip_of_bid st0 D R b.id hb)
  unfold promoteApply stripSt
  refine Store.mk.injEq .. ▸ ?_
  refine ⟨rfl, ?_, ?_, ?_, ?_⟩
  · dsimp only
    rw [List.filter_filter]
    apply List.filter_congr
    intro p _
    cases hc : p.binaryId with
    | none => simp [hc]
    | some j =>
      by_cases hj : j = b.id
      · subst hj
        simp [hc]
      · simp [hc, hj, Ne.symm hj]
  · dsimp only
    rw [hpartIds2, List.filter_filter]
    apply List.filter_congr
    intro s _
    have hiff : (∃ p ∈ st0.parts, p.id = s.partId ∧ ∃ d ∈ D ++ [b.id], p.binaryId = some d) ↔
        ((∃ p ∈ st0.parts, p.id = s.partId ∧ ∃ d ∈ D, p.binaryId = some d) ∨
          s.partId ∈ (st0.parts.filter (fun p => p.binaryId = some b.id)).map
            (fun p => p.id)) := by
      constructor
      · rintro ⟨p, hp, he, d, hd, hbd⟩
        rcases List.mem_append.1 hd with hd | hd
        · exact Or.inl ⟨p, hp, he, d, hd, hbd⟩
        · simp only [List.mem_singleton] at hd
          subst hd
          right
          exact List.mem_map.2 ⟨p, List.mem_filter.2 ⟨hp, by simp [hbd]⟩, he⟩
      · rintro (⟨p, hp, he, d, hd, hbd⟩ | hmem)
        · exact ⟨p, hp, he, d, List.mem_append_left _ hd, hbd⟩
        · obtain ⟨p, hpf, he⟩ := List.mem_map.1 hmem
          have hm := List.mem_filter.1 hpf
          exact ⟨p, hm.1, he, b.id,
            List.mem_append_right _ (List.mem_singleton_self _), of_decide_eq_true hm.2⟩
    by_cases hA : (∃ p ∈ st0.parts, p.id = s.partId ∧ ∃ d ∈ D, p.binaryId = some d)
    · simp [hA]
      obtain ⟨p, hp, he, d, hd, hbd⟩ := hA
      exact ⟨p, hp, he, d, Or.inl hd, hbd⟩
    · by_cases hB : s.partId ∈ (st0.parts.filter
          (fun p => p.binaryId = some b.id)).map (fun p => p.id)
      · simp [hA, hB]
        obtain ⟨p, hpf, he⟩ := List.mem_map.1 hB
        have hm := List.mem_filter.1 hpf
        exact ⟨p, hm.1, he, b.id, Or.inr rfl, of_decide_eq_true hm.2⟩
      · simp [hA, hB]
        rintro p hp he d hd hbd
        rcases hd with hd | rfl
        · exact hA ⟨p, hp, he, d, hd, hbd⟩
        · exact hB (List.mem_map.2 ⟨p, List.mem_filter.2 ⟨hp, by simp [hbd]⟩, he⟩)
  · dsimp only
    rw [List.filter_filter]
    apply List.filter_congr
    intro x _
    by_cases h1 : x.id ∈ D <;> by_cases h2 : x.id = b.id <;>
      simp [h1, h2, List.mem_append]
  · dsimp only
    exact (List.append_assoc _ _ _)

theorem keyCount_zero_of_find_none (rels : List ReleaseRow) (nm : String) (po : Nat)
    (h : rels.find? (fun r => r.name = nm && r.posted = po) = none) :
    keyCount rels nm po = 0 := by
  unfold keyCount
  rw [List.length_eq_zero, List.filter_eq_nil_iff]
  intro r hr
  simpa using List.find?_eq_none.1 h r hr

theorem hasRelKey_strip_mono (st0 : Store) (D D2 : List Nat) (R Rx : List ReleaseRow)
    (c : CandidateRow) (h : hasRelKey (stripSt st0 D R) c) :
    hasRelKey (stripSt st0 D2 (R ++ Rx)) c := by
  obtain ⟨r, hr, hk⟩ := h
  refine ⟨r, ?_, hk⟩
  have he : (stripSt st0 D2 (R ++ Rx)).releases = st0.releases ++ (R ++ Rx) := rfl
  rw [he, ← List.append_assoc]
  exact List.mem_append_left _ hr

theorem makeReleasesLoop_happy (st0 : Store)
    (hWFp : (st0.parts.map (fun p => p.id)).Nodup)
    (hG : ∀ b ∈ st0.binaries, isCandidate st0 b = true →
      (st0.groups.find? (fun g => g.name = b.group)).isSome) :
    ∀ (cs : List CandidateRow) (D : List Nat) (R : List ReleaseRow),
    (∀ c ∈ cs, ∃ b ∈ st0.binaries, c = rowOf b ∧ isCandidate st0 b = true) →
    (∀ c ∈ cs, ¬ c.id ∈ D) →
    ((cs.map (fun c => c.id)).Nodup) →
    ∃ Dx Rx,
      makeReleasesLoop happyOracle (stripSt st0 D R) cs =
        (stripSt st0 (D ++ Dx) (R ++ Rx), StepResult.ok) ∧
      (∀ d ∈ Dx, ∃ c ∈ cs, c.id = d) ∧
      (∀ c ∈ cs, c.id ∈ Dx ∨ hasRelKey (stripSt st0 (D ++ Dx) (R ++ Rx)) c) ∧
      (∀ c ∈ cs, c.id ∈ Dx →
        keyCount (stripSt st0 (D ++ Dx) (R ++ Rx)).releases c.name c.posted = 1) := by
  intro cs
  induction cs with
  | nil =>
    intro D R hcs hcsD hnd
    refine ⟨[], [], ?_, ?_, ?_, ?_⟩
    · rw [List.append_nil, List.append_nil]
      rfl
    · intro d hd
      exact absurd hd (List.not_mem_nil d)
    · intro c hc
      exact absurd hc (List.not_mem_nil c)
    · intro c hc
      exact absurd hc (List.not_mem_nil c)
  | cons c cs ih =>
    intro D R hcs hcsD hnd
    obtain ⟨b, hbmem, hcb, hbcand⟩ := hcs c (List.mem_cons_self c cs)
    have hcid : c.id = b.id := by rw [hcb]; rfl
    have hndc : (cs.map (fun x => x.id)).Nodup := by
      simp only [List.map_cons, List.nodup_cons] at hnd
      exact hnd.2
    have hcnotin : ∀ c2 ∈ cs, c2.id ≠ c.id := by
      intro c2 hc2 he
      simp only [List.map_cons, List.nodup_cons] at hnd
      exact hnd.1 (he ▸ List.mem_map_of_mem (fun x => x.id) hc2)
    by_cases hdup : hasRelKey (stripSt st0 D R) c
    · have hstep := promote_dup_skip happyOracle (stripSt st0 D R) c hdup rfl
      have hloop : makeReleasesLoop happyOracle (stripSt st0 D R) (c :: cs) =
          makeReleasesLoop happyOracle (stripSt st0 D R) cs := by
        simp only [makeReleasesLoop]
        rw [hstep]
      obtain ⟨Dx, Rx, hl, h2, h3, h4⟩ := ih D R
        (fun c2 hc2 => hcs c2 (List.mem_cons_of_mem c hc2))
        (fun c2 hc2 => hcsD c2 (List.mem_cons_of_mem c hc2)) hndc
      refine ⟨Dx, Rx, by rw [hloop]; exact hl, ?_, ?_, ?_⟩
      · intro d hd
        obtain ⟨c2, hc2, he⟩ := h2 d hd
        exact ⟨c2, List.mem_cons_of_mem c hc2, he⟩
      · intro c2 hc2
        rcases List.mem_cons.1 hc2 with rfl | hc3
        · exact Or.inr (hasRelKey_strip_mono st0 D (D ++ Dx) R Rx c2 hdup)
        · exact h3 c2 hc3
      · intro c2 hc2 hin
        rcases List.mem_cons.1 hc2 with rfl | hc3
        · obtain ⟨c3, hc3, he⟩ := h2 c2.id hin
          exact absurd he (hcnotin c3 hc3)
        · exact h4 c2 hc3 hin
    · have hfind : (stripSt st0 D R).releases.find?
          (fun r => r.name = c.name && r.posted = c.posted) = none := by
        rw [hasRelKey_iff_find] at hdup
        exact Option.not_isSome_iff_eq_none.1 hdup
      have hbinmem : b ∈ (stripSt st0 D R).binaries := by
        have hD : ¬ b.id ∈ D := by
          rw [← hcid]
          exact hcsD c (List.mem_cons_self c cs)
        exact List.mem_filter.2 ⟨hbmem, by simp [hD]⟩
      have hbbSome : ((stripSt st0 D R).binaries.find? (fun x => x.id = c.id)).isSome := by
        rw [List.find?_isSome]
        exact ⟨b, hbinmem, by simp [hcid]⟩
      obtain ⟨g, hg⟩ := Option.isSome_iff_exists.1 (hG b hbmem hbcand)
      have hg2 : (stripSt st0 D R).groups.find? (fun x => x.name = c.group) = some g := by
        rw [hcb]
        exact hg
      have hstep := promote_happy_apply (stripSt st0 D R) c g hfind hbbSome hg2
      have happly := promoteApply_strip st0 D R c g hWFp
        (hcsD c (List.mem_cons_self c cs))
      have hloop : makeReleasesLoop happyOracle (stripSt st0 D R) (c :: cs) =
          makeReleasesLoop happyOracle
            (stripSt st0 (D ++ [c.id]) (R ++ [newReleaseFor (stripSt st0 D R) c g])) cs := by
        simp only [makeReleasesLoop]
        rw [hstep, happly]
      obtain ⟨Dx, Rx, hl, h2, h3, h4⟩ := ih (D ++ [c.id])
        (R ++ [newReleaseFor (stripSt st0 D R) c g])
        (fun c2 hc2 => hcs c2 (List.mem_cons_of_mem c hc2))
        (by
          intro c2 hc2
          simp only [List.mem_append, List.mem_singleton, not_or]
          exact ⟨hcsD c2 (List.mem_cons_of_mem c hc2), hcnotin c2 hc2⟩) hndc
      have hDeq : (D ++ [c.id]) ++ Dx = D ++ (c.id :: Dx) := by
        rw [List.append_assoc, List.singleton_append]
      have hReq : (R ++ [newReleaseFor (stripSt st0 D R) c g]) ++ Rx =
          R ++ (newReleaseFor (stripSt st0 D R) c g :: Rx) := by
        rw [List.append_assoc, List.singleton_append]
      rw [hDeq, hReq] at hl h3 h4
      have hcount1 : keyCount ((stripSt st0 (D ++ [c.id])
          (R ++ [newReleaseFor (stripSt st0 D R) c g])).releases) c.name c.posted = 1 := by
        have hrel : (stripSt st0 (D ++ [c.id])
            (R ++ [newReleaseFor (stripSt st0 D R) c g])).releases =
            (st0.releases ++ R) ++ [newReleaseFor (stripSt st0 D R) c g] := by
          have : (stripSt st0 (D ++ [c.id])
              (R ++ [newReleaseFor (stripSt st0 D R) c g])).releases =
              st0.releases ++ (R ++ [newReleaseFor (stripSt st0 D R) c g]) := rfl
          rw [this, List.append_assoc]
        rw [hrel, keyCount_append]
        have h0 : keyCount (st0.releases ++ R) c.name c.posted = 0 :=
          keyCount_zero_of_find_none _ _ _ hfind
        have h1 : keyCount [newReleaseFor (stripSt st0 D R) c g] c.name c.posted = 1 := by
          unfold keyCount newReleaseFor
          simp
        rw [h0, h1]
      refine ⟨c.id :: Dx, newReleaseFor (stripSt st0 D R) c g :: Rx,
        by rw [hloop]; exact hl, ?_, ?_, ?_⟩
      · intro d hd
        rcases List.mem_cons.1 hd with rfl | hd2
        · exact ⟨c, List.mem_cons_self c cs, rfl⟩
        · obtain ⟨c2, hc2, he⟩ := h2 d hd2
          exact ⟨c2, List.mem_cons_of_mem c hc2, he⟩
      · intro c2 hc2
        rcases List.mem_cons.1 hc2 with rfl | hc3
        · exact Or.inl (List.mem_cons_self _ _)
        · rcases h3 c2 hc3 with hin | hkey
          · exact Or.inl (List.mem_cons_of_mem _ hin)
          · exact Or.inr hkey
      · intro c2 hc2 hin
        rcases List.mem_cons.1 hc2 with rfl | hc3
        · have hstay := (loop_keyCount happyOracle cs _ _ _ hl c2.name c2.posted).2
            (by rw [hcount1])
          rw [hstay, hcount1]
        · rcases List.mem_cons.1 hin with he | hin2
          · exact absurd he (hcnotin c2 hc3)
          · exact h4 c2 hc3 hin2

/-- C6: on a well-formed store (unique binary ids and hashes, unique
part ids, resolvable groups for all ready binaries), one happy-path
`MakeReleases` run succeeds; each promoted binary ends with exactly one
release under its (name, posted) key and zero remaining binary, part and
segment rows; and a second run on the resulting store changes nothing. -/
theorem promoterIdempotent (st : Store)
    (hWFb : (st.binaries.map (fun b => b.id)).Nodup)
    (hWFp : (st.parts.map (fun p => p.id)).Nodup)
    (hWFh : (st.binaries.map (fun b => b.hash)).Nodup)
    (hG : ∀ b ∈ st.binaries, isCandidate st b = true →
      (st.groups.find? (fun g => g.name = b.group)).isSome)
    (st1 : Store) (res : StepResult)
    (hrun : makeReleases happyOracle st = (st1, res)) :
    res = StepResult.ok ∧
    (∀ b ∈ st.binaries, ¬ b.id ∈ st1.binaries.map (fun x => x.id) →
      ((st1.releases.filter (fun r => r.name = b.name && r.posted = b.posted)).length = 1 ∧
       st1.binaries.filter (fun x => x.hash = b.hash) = [] ∧
       st1.parts.filter (fun p => p.binaryId = some b.id) = [] ∧
       st1.segments.filter (fun s =>
         s.partId ∈ (st.parts.filter (fun p => p.binaryId = some b.id)).map
           (fun p => p.id)) = [])) ∧
    makeReleases happyOracle st1 = (st1, StepResult.ok) := by
  have hcs : ∀ c ∈ (candidateBinaries st).map rowOf,
      ∃ b ∈ st.binaries, c = rowOf b ∧ isCandidate st b = true := by
    intro c hc
    obtain ⟨b, hb, he⟩ := List.mem_map.1 hc
    unfold candidateBinaries at hb
    have hb2 := (List.mem_insertionSort _).1 hb
    have hb3 := List.mem_filter.1 hb2
    exact ⟨b, hb3.1, he.symm, hb3.2⟩
  have hndc : (((candidateBinaries st).map rowOf).map (fun c => c.id)).Nodup := by
    rw [List.map_map]
    have hfe : List.map ((fun c => c.id) ∘ rowOf) (candidateBinaries st) =
        List.map (fun b => b.id) (candidateBinaries st) :=
      List.map_congr_left (fun b _ => rfl)
    rw [hfe]
    have h1 : ((st.binaries.filter (fun b => isCandidate st b)).map (fun b => b.id)).Nodup :=
      List.Nodup.sublist (List.Sublist.map _ (List.filter_sublist _)) hWFb
    unfold candidateBinaries
    exact (List.Perm.nodup_iff ((List.perm_insertionSort _ _).map (fun (b : BinaryRow) => b.id))).2 h1
  obtain ⟨Dx, Rx, hl, h2, h3, h4⟩ := makeReleasesLoop_happy st hWFp hG
    ((candidateBinaries st).map rowOf) [] [] hcs
    (fun c _ => List.not_mem_nil c.id) hndc
  rw [List.nil_append, List.nil_append] at hl
  have hrun2 : makeReleasesLoop happyOracle (stripSt st [] []) ((candidateBinaries st).map rowOf) =
      (st1, res) := by
    rw [stripSt_nil]
    exact hrun
  have hpair : (st1, res) = (stripSt st Dx Rx, StepResult.ok) := hrun2.symm.trans hl
  have hst1 : st1 = stripSt st Dx Rx := (Prod.ext_iff.1 hpair).1
  have hres : res = StepResult.ok := (Prod.ext_iff.1 hpair).2
  subst hst1
  subst hres
  refine ⟨rfl, ?_, ?_⟩
  · intro b hbm hbgone
    have hbin : b.id ∈ Dx := by
      by_contra hbx
      apply hbgone
      have : b ∈ (stripSt st Dx Rx).binaries := List.mem_filter.2 ⟨hbm, by simp [hbx]⟩
      exact List.mem_map_of_mem (fun x => x.id) this
    obtain ⟨c, hcmem, hceq⟩ := h2 b.id hbin
    obtain ⟨b2, hb2mem, hcb2, _⟩ := hcs c hcmem
    have hb2b : b2 = b := by
      apply eq_of_mem_key (fun x => x.id) st.binaries hWFb b2 hb2mem b hbm
      rw [← hceq, hcb2]
      rfl
    have hcrow : c = rowOf b := by rw [hcb2, hb2b]
    refine ⟨?_, ?_, ?_, ?_⟩
    · have := h4 c hcmem (by rw [hceq]; exact hbin)
      rw [hcrow] at this
      exact this
    · rw [List.filter_eq_nil_iff]
      intro x hx
      have hxm := List.mem_filter.1 hx
      intro hxh
      have hxb : x = b := by
        apply eq_of_mem_key (fun y => y.hash) st.binaries hWFh x hxm.1 b hbm
        exact of_decide_eq_true hxh
      rw [hxb] at hxm
      have := of_decide_eq_true hxm.2
      simp at this
      exact this hbin
    · rw [List.filter_eq_nil_iff]
      intro p hp
      have hpm := List.mem_filter.1 hp
      intro hpb
      have hQ := of_decide_eq_true hpm.2
      exact hQ ⟨b.id, hbin, of_decide_eq_true hpb⟩
    · rw [List.filter_eq_nil_iff]
      intro s hs
      have hsm := List.mem_filter.1 hs
      intro hmem
      obtain ⟨p, hpf, hpe⟩ := List.mem_map.1 (of_decide_eq_true hmem)
      have hpm := List.mem_filter.1 hpf
      have hQ := of_decide_eq_true hsm.2
      exact hQ ⟨p, hpm.1, hpe, b.id, hbin, of_decide_eq_true hpm.2⟩
  · have hall : ∀ c ∈ (candidateBinaries (stripSt st Dx Rx)).map rowOf,
        hasRelKey (stripSt st Dx Rx) c := by
      intro c hc
      obtain ⟨b2, hb2, he⟩ := List.mem_map.1 hc
      unfold candidateBinaries at hb2
      have hb2s := (List.mem_insertionSort _).1 hb2
      have hb2f := List.mem_filter.1 hb2s
      have hb2m := List.mem_filter.1 hb2f.1
      have hb2nd : ¬ b2.id ∈ Dx := by
        have := of_decide_eq_true hb2m.2
        simpa using this
      have hcand : isCandidate st b2 = true := by
        rw [← isCandidate_strip st Dx Rx hWFp b2 hb2nd]
        exact hb2f.2
      have hcmem : rowOf b2 ∈ (candidateBinaries st).map rowOf := by
        apply List.mem_map_of_mem rowOf
        unfold candidateBinaries
        rw [List.mem_insertionSort]
        exact List.mem_filter.2 ⟨hb2m.1, hcand⟩
      rcases h3 (rowOf b2) hcmem with hin | hkey
      · exact absurd hin hb2nd
      · rw [← he]
        exact hkey
    have := loop_all_dup ((candidateBinaries (stripSt st Dx Rx)).map rowOf)
      (stripSt st Dx Rx) hall
    exact this

def stC6 : Store :=
  { groups := [{ name := "g", active := true }],
    parts := [{ id := 1, subject := "s", group := "g", poster := "p",
                posted := 4, totalSegments := 1, binaryId := some 1 }],
    segments := [{ id := 1, partId := 1, size := 7 }],
    binaries := [{ id := 1, hash := "h", name := "N", posted := 4, poster := "p",
                   group := "g", totalParts := 1 }],
    releases := [] }

theorem promoterIdempotent_witness :
    (makeReleases happyOracle stC6).2 = StepResult.ok ∧
    makeReleases happyOracle (makeReleases happyOracle stC6).1 =
      ((makeReleases happyOracle stC6).1, StepResult.ok) := by
  have h := promoterIdempotent stC6 (by decide) (by decide) (by decide) (by decide)
    (makeReleases happyOracle stC6).1 (makeReleases happyOracle stC6).2 rfl
  exact ⟨h.1, h.2.2⟩
